import Mathlib

/-!
# sdlogr: a shallow embedding of the systemd log sink

The Go package `sdlogr` (file `sdlogr.go`) renders leveled log events as single
lines carrying a systemd severity code.  This file embeds its data model and
operations and proves properties of them.

Modelling conventions.

* A Go `string` / `[]byte` is a list of bytes, `GoString := List Nat`; `ascii`
  turns an ASCII literal into its bytes.
* A Go `int` is an `Int`; additions performed by the code are wrapped to 64 bits
  by `wrapInt`.
* An `interface{}` value is a `Value`: the cases the code distinguishes (the
  string `""`, the whitelisted kinds of `deref`, nil and non-nil pointers) are
  constructors; a value whose text is produced by `fmt` from its own structure
  carries that text.
* A Go map is a reference: the snapshot holds an address into `World.maps`.
  Copying the struct (a value receiver) copies the address, not the map.
* `range` over a map visits the entries in an order Go leaves unspecified: the
  order is an argument, `RangeOrder`, of the code that ranges.
* `runtime.Caller` is an argument, `Caller`.
* The destination `io.Writer` is a handle; every `Write` call is appended to
  `World.written`.
* A run-time panic (an index or a slice bound out of range) is `none`.
-/

namespace Sdlogr

/-! ## Strings and integers -/

/-- Bytes of a Go string or byte slice. -/
abbrev GoString := List Nat

/-- Bytes of an ASCII literal. -/
def ascii (s : String) : GoString := s.toList.map Char.toNat

/-- Two's-complement wrap of a 64-bit Go `int`. -/
def wrapInt (x : Int) : Int := (x + 2 ^ 63) % 2 ^ 64 - 2 ^ 63

/-- Decimal text of an integer, `strconv.Itoa`. -/
def Itoa (n : Int) : GoString :=
  if n < 0 then 45 :: (Nat.toDigits 10 n.natAbs).map Char.toNat
  else (Nat.toDigits 10 n.natAbs).map Char.toNat

/-! ## Constants of the package -/

/-- Severity code of error lines, `SD_ERR`. -/
def sdLvlError : GoString := ascii "<3>"

/-- Severity code of informational lines, `SD_INFO`. -/
def sdLvlInfo : GoString := ascii "<6>"

/-- The two double quotes that stand for an empty string. -/
def emptyStringPlaceholder : GoString := [34, 34]

/-- The array `mergeSeparators`: index 0 is colon-space, index 1 is comma-space. -/
def mergeSeparators : Nat → GoString
  | 0 => ascii ": "
  | _ => ascii ", "

/-! ## Values of type `interface{}` -/

/-- A value passed as `interface{}`. -/
inductive Value where
  /-- The nil interface. -/
  | nil
  /-- A `string`. -/
  | str (s : GoString)
  /-- An integer of any of the whitelisted integer kinds. -/
  | int (i : Int)
  /-- A `bool`. -/
  | bool (b : Bool)
  /-- A whitelisted slice, with the text `fmt` prints for it. -/
  | slice (shown : GoString)
  /-- A value implementing `error`, with the text of `Error()`. -/
  | err (text : GoString)
  /-- A nil pointer (of a type that is not an `error`). -/
  | nilPtr
  /-- A non-nil pointer (of a type that is not an `error`): the text `fmt`
  prints for the pointer itself, and the value it points to. -/
  | ptr (shown : GoString) (elem : Value)
  /-- Any other value (a struct, a map, a named type), with the text `fmt`
  prints for it. -/
  | other (shown : GoString)
  deriving DecidableEq

/-- The normalizer `deref`: whitelisted kinds are returned as they are, a
pointer is followed one level (nil pointer to nil), the rest is returned as is. -/
def deref (i : Value) : Value :=
  match i with
  | .str _ | .int _ | .bool _ | .slice _ | .err _ => i
  | .nilPtr => .nil
  | .ptr _ elem => elem
  | .nil | .other _ => i

/-- Text of a value under the verb `%v`, as `fmt.Sprintf("%v", x)`. -/
def fmtV : Value → GoString
  | .nil => ascii "<nil>"
  | .str s => s
  | .int i => Itoa i
  | .bool true => ascii "true"
  | .bool false => ascii "false"
  | .slice shown => shown
  | .err text => text
  | .nilPtr => ascii "<nil>"
  | .ptr shown _ => shown
  | .other shown => shown

/-- The test `v == ""` followed by `v = emptyStringPlaceholder`. -/
def orPlaceholder (v : Value) : Value :=
  if v = Value.str [] then Value.str emptyStringPlaceholder else v

/-! ## The snapshot and the world it runs in -/

/-- A Go `map[string]interface{}`. -/
abbrev GoMap := AList (fun _ : GoString => Value)

/-- One entry of a map. -/
abbrev Entry := Sigma (fun _ : GoString => Value)

/-- The order in which one `range` loop visits the entries of a map. -/
structure RangeOrder where
  /-- The entries in the order of the visit. -/
  visit : List Entry → List Entry
  /-- Every entry is visited once. -/
  perm : ∀ es, (visit es).Perm es

/-- The order in which the entries are stored. -/
def RangeOrder.stored : RangeOrder := ⟨fun es => es, fun es => List.Perm.refl es⟩

/-- The reverse of the order in which the entries are stored. -/
def RangeOrder.reversed : RangeOrder := ⟨List.reverse, List.reverse_perm⟩

/-- The result of `runtime.Caller(skip)`: file and line, or `none` when not ok. -/
abbrev Caller := Int → Option (GoString × Int)

/-- The struct `Options`. `Out` is `none` for a nil writer. -/
structure Options where
  Depth : Int
  Verbosity : Int
  LogCallerInfo : Bool
  Out : Option Nat

/-- The struct `logr.RuntimeInfo`. -/
structure RuntimeInfo where
  CallDepth : Int

/-- The struct `sdLogr`. `valuesMap` is the address of the map, `out` the handle
of the destination. -/
structure sdLogr where
  level : Int
  depth : Int
  prefix_ : GoString
  valuesMap : Nat
  valuesStr : GoString
  out : Nat
  logCallerInfo : Bool

/-- The mutable state outside the snapshots: the maps, the next free address,
and the `Write` calls made so far (handle and bytes). -/
structure World where
  maps : Nat → GoMap
  nextMap : Nat
  written : List (Nat × GoString)

/-- The handle of `os.Stdout`. -/
def stdout : Nat := 1

/-- A world with no map allocated and nothing written. -/
def World.empty : World := ⟨fun _ => ∅, 0, []⟩

/-! ## Operations -/

/-- The method `Init`. -/
def Init (l : sdLogr) (info : RuntimeInfo) : sdLogr :=
  if info.CallDepth < 0 then l
  else { l with depth := wrapInt (l.depth + info.CallDepth) }

/-- The function `NewWithOptions`. The map is allocated at the next free
address; `logr.New` calls `Init` with the runtime information `info` of the
front-end. -/
def NewWithOptions (opts : Options) (info : RuntimeInfo) (w : World) : sdLogr × World :=
  let opts := if opts.Depth < 0 then { opts with Depth := 0 } else opts
  let opts := if opts.Verbosity < 0 then { opts with Verbosity := 0 } else opts
  let opts := if opts.Out = none then { opts with Out := some stdout } else opts
  let l : sdLogr :=
    { level := opts.Verbosity
      depth := wrapInt (opts.Depth + 1)
      prefix_ := []
      valuesMap := w.nextMap
      valuesStr := []
      out := opts.Out.getD stdout
      logCallerInfo := opts.LogCallerInfo }
  (Init l info, { w with maps := Function.update w.maps w.nextMap ∅, nextMap := w.nextMap + 1 })

/-- The function `New`. -/
def New (info : RuntimeInfo) (w : World) : sdLogr × World :=
  NewWithOptions { Depth := 0, Verbosity := 0, LogCallerInfo := true, Out := none } info w

/-- The method `Enabled`. -/
def Enabled (l : sdLogr) (level : Int) : Bool := decide (level ≤ l.level)

/-- The loop of `getLastSlashPos` from index `i` down: it stops at a slash or
at index 0, which it does not inspect. -/
def lastSlashLoop (str : GoString) : Nat → Nat
  | 0 => 0
  | i + 1 => if str.getD (i + 1) 0 = 47 then i + 1 else lastSlashLoop str i

/-- The function `getLastSlashPos`. -/
def getLastSlashPos (str : GoString) : Int :=
  if str.length = 0 then -1 else (lastSlashLoop str (str.length - 1) : Nat)

/-- The text written for the caller: `file[getLastSlashPos(file)+1:]`, the
line, and the separators; the marker when `runtime.Caller` is not ok. -/
def callerInfo (caller : Caller) (depth : Int) : GoString :=
  match caller depth with
  | some (file, line) =>
    file.drop (getLastSlashPos file + 1).toNat ++ ascii ": " ++ Itoa line ++ ascii ", "
  | none => ascii "???: 0, "

/-- The loop of `bufferKv` from index `i` on. -/
def bufferKvLoop : Nat → List Value → GoString → GoString
  | _, [], buf => buf
  | i, v :: rest, buf =>
    bufferKvLoop (i + 1) rest (buf ++ fmtV (deref (orPlaceholder v)) ++ mergeSeparators (i % 2))

/-- The function `bufferKv`: the first `kvLen` items of `kvList`. -/
def bufferKv (buf : GoString) (kvList : List Value) (kvLen : Nat) : GoString :=
  bufferKvLoop 0 (kvList.take kvLen) buf

/-- The function `write`. It panics on a buffer of fewer than two bytes. -/
def write (out : Nat) (buf : GoString) (w : World) : Option World :=
  if buf.length < 2 then none
  else
    let newLen := buf.length - 1
    let finalBytes := buf.take newLen
    let newLen := newLen - 1
    let finalBytes := if finalBytes.getD newLen 0 ≠ 10 then finalBytes.set newLen 10 else finalBytes
    some { w with written := w.written ++ [(out, finalBytes)] }

/-- The buffer `Info` assembles and its flag `hasData`. -/
def infoAssemble (l : sdLogr) (caller : Caller) (msg : GoString) (kvList : List Value) :
    GoString × Bool :=
  let buf := sdLvlInfo
  let hasData := false
  let buf := if l.prefix_.length > 0 then buf ++ (l.prefix_ ++ ascii ": ") else buf
  let buf := if l.logCallerInfo then buf ++ callerInfo caller l.depth else buf
  let r := if msg ≠ [] then (buf ++ (msg ++ ascii ", "), true) else (buf, hasData)
  let r := if l.valuesStr ≠ [] then (r.1 ++ l.valuesStr, true) else r
  let kvLen := kvList.length
  let r := if kvLen > 0 then (bufferKv r.1 kvList kvLen, true) else r
  r

/-- The method `Info`. The level argument is not used. -/
def Info (l : sdLogr) (caller : Caller) (_level : Int) (msg : GoString) (kvList : List Value)
    (w : World) : Option World :=
  let r := infoAssemble l caller msg kvList
  if r.2 then write l.out r.1 w else some w

/-- The buffer `Error` assembles. `err` is `none` for a nil error and the text
of `err.Error()` otherwise. -/
def errorAssemble (l : sdLogr) (caller : Caller) (err : Option GoString) (msg : GoString)
    (kvList : List Value) : GoString :=
  let buf := sdLvlError
  let buf := if l.prefix_.length > 0 then buf ++ (l.prefix_ ++ ascii ": ") else buf
  let buf := buf ++ callerInfo caller l.depth
  let buf :=
    match err with
    | some text => buf ++ (text ++ ascii ", ")
    | none => buf ++ ascii "<nil>, "
  let buf := if msg ≠ [] then buf ++ (msg ++ ascii ", ") else buf
  let buf := if l.valuesStr ≠ [] then buf ++ l.valuesStr else buf
  let kvLen := kvList.length
  let buf := if kvLen > 0 then bufferKv buf kvList kvLen else buf
  buf

/-- The method `Error`. -/
def Error (l : sdLogr) (caller : Caller) (err : Option GoString) (msg : GoString)
    (kvList : List Value) (w : World) : Option World :=
  write l.out (errorAssemble l caller err msg kvList) w

/-- The method `WithName`. -/
def WithName (l : sdLogr) (name : GoString) : sdLogr :=
  let l := if l.prefix_.length > 0 then { l with prefix_ := l.prefix_ ++ ascii "/" } else l
  { l with prefix_ := l.prefix_ ++ name }

/-- The key under which `WithValues` stores a pair: the placeholder for the
string `""`, then `fmt.Sprintf("%v", deref(k))`. -/
def keyText (k : Value) : GoString := fmtV (deref (orPlaceholder k))

/-- The first loop of `WithValues`: the pairs of `kvList` are stored in the map,
the key as the text of its normalized form. The list has an even length there. -/
def insertPairs : List Value → GoMap → GoMap
  | k :: v :: rest, m => insertPairs rest (m.insert (keyText k) v)
  | _, m => m

/-- The text `WithValues` appends for one entry of the map. -/
def segment (e : Entry) : GoString :=
  e.1 ++ ascii ": " ++ fmtV (deref (orPlaceholder e.2)) ++ ascii ", "

/-- The second loop of `WithValues`: the string is rebuilt from the entries in
the order of the visit. -/
def rebuildValuesStr (es : List Entry) : GoString :=
  es.foldl (fun acc e => acc ++ segment e) []

/-- The padding of `WithValues`: a list of odd length gets the placeholder as
its last value. -/
def padKv (kvList : List Value) : List Value :=
  if kvList.length % 2 ≠ 0 then kvList ++ [Value.str emptyStringPlaceholder] else kvList

/-- The method `WithValues`. The receiver is a copy of the struct; the map
behind `valuesMap` is the one the original holds. -/
def WithValues (l : sdLogr) (kvList : List Value) (order : RangeOrder) (w : World) :
    sdLogr × World :=
  let n := kvList.length
  if n = 0 then (l, w)
  else
    let kvList := padKv kvList
    let m := insertPairs kvList (w.maps l.valuesMap)
    let w := { w with maps := Function.update w.maps l.valuesMap m }
    ({ l with valuesStr := rebuildValuesStr (order.visit (w.maps l.valuesMap).entries) }, w)

/-- The method `WithCallDepth`. -/
def WithCallDepth (l : sdLogr) (depth : Int) : sdLogr :=
  { l with depth := wrapInt (l.depth + depth) }

/-! ## Closed forms used in the statements -/

/-- The name part of a line: the name and colon-space, nothing for an empty name. -/
def namePart (l : sdLogr) : GoString :=
  if l.prefix_.length > 0 then l.prefix_ ++ ascii ": " else []

/-- The message part of a line: the message and comma-space, nothing for an
empty message. -/
def msgPart (msg : GoString) : GoString :=
  if msg ≠ [] then msg ++ ascii ", " else []

/-- The error part of an error line. -/
def errPart (err : Option GoString) : GoString :=
  match err with
  | some text => text ++ ascii ", "
  | none => ascii "<nil>, "

/-- The call-site items from index `i` on: each item is followed by colon-space
at an even index and by comma-space at an odd one. -/
def pairsText : Nat → List Value → GoString
  | _, [] => []
  | i, v :: rest =>
    fmtV (deref (orPlaceholder v)) ++ (if i % 2 = 0 then ascii ": " else ascii ", ")
      ++ pairsText (i + 1) rest

/-- A buffer with its final two bytes replaced by one line feed. -/
def replaceLastTwo (buf : GoString) : GoString := buf.take (buf.length - 2) ++ [10]

/-- The `Write` calls recorded in the world a run returns. -/
def writesOf (r : Option World) : Option (List (Nat × GoString)) := r.map World.written

/-- The file component in the words of the specification: the text after the
final slash, the whole text when there is no slash. -/
def basenameSpec (file : GoString) : GoString :=
  (file.reverse.takeWhile (fun b => b ≠ 47)).reverse

/-- The line of an informational event before the final trim, in the words of
the specification; `res` is the result of the caller resolution. -/
def infoLineSpec (l : sdLogr) (res : Option (GoString × Int)) (msg : GoString)
    (kvList : List Value) : GoString :=
  ascii "<6>" ++ namePart l
    ++ (if l.logCallerInfo then
          match res with
          | some (file, line) => basenameSpec file ++ ascii ": " ++ Itoa line ++ ascii ", "
          | none => ascii "???: 0, "
        else [])
    ++ msgPart msg ++ l.valuesStr ++ pairsText 0 kvList

/-- The text of an error without separator: the marker for a nil error. -/
def errText (err : Option GoString) : GoString :=
  match err with
  | some text => text
  | none => ascii "<nil>"

/-- Whether a written line ends in one line feed with no line feed and no
separator character (comma, colon, space) before it. -/
def endsInOneLineFeed (line : GoString) : Bool :=
  match line.reverse with
  | last :: before :: _ =>
    decide (last = 10) && !(decide (before = 10) || decide (before = 44)
      || decide (before = 58) || decide (before = 32))
  | _ => false

/-- The segments of a list of entries, one after the other. -/
def concatSegments : List Entry → GoString
  | [] => []
  | e :: rest => segment e ++ concatSegments rest

/-- The map a snapshot holds, in the world it was returned with. -/
def mapOf (r : sdLogr × World) : GoMap := r.2.maps r.1.valuesMap

/-- The string of the snapshot is one segment per entry of its map, in some
order of the entries, and exactly one of the entries has the key `key`: it
holds the value `v`. -/
def rendersOnce (r : sdLogr × World) (key : GoString) (v : Value) : Prop :=
  ∃ es : List Entry, es.Perm (mapOf r).entries ∧ r.1.valuesStr = concatSegments es
    ∧ es.filter (fun e => decide (e.1 = key)) = [⟨key, v⟩]

/-- A derivation of a snapshot. -/
inductive Derivation where
  | withName (name : GoString)
  | withValues (kvList : List Value) (order : RangeOrder)
  | withCallDepth (depth : Int)

/-- The snapshot a derivation returns and the world it leaves. -/
def Derivation.apply (d : Derivation) (l : sdLogr) (w : World) : sdLogr × World :=
  match d with
  | .withName name => (WithName l name, w)
  | .withValues kvList order => WithValues l kvList order w
  | .withCallDepth depth => (WithCallDepth l depth, w)

/-- The snapshots built from a root by name and values derivations and by
call-depth adjustments that are not negative, all sums staying in the range of
a 64-bit `int`. -/
inductive GrowsFromRoot : sdLogr → Prop where
  | root (o : Options) (info : RuntimeInfo) (w : World)
      (h : max o.Depth 0 + 1 + max info.CallDepth 0 < 2 ^ 63) :
      GrowsFromRoot (NewWithOptions o info w).1
  | withName (l : sdLogr) (name : GoString) :
      GrowsFromRoot l → GrowsFromRoot (WithName l name)
  | withValues (l : sdLogr) (kvList : List Value) (order : RangeOrder) (w : World) :
      GrowsFromRoot l → GrowsFromRoot (WithValues l kvList order w).1
  | withCallDepth (l : sdLogr) (delta : Int) (hd : 0 ≤ delta) (hsum : l.depth + delta < 2 ^ 63) :
      GrowsFromRoot l → GrowsFromRoot (WithCallDepth l delta)

/-- The snapshots the package can build: a root of `NewWithOptions`, and what
`Init`, `WithName`, `WithValues` and `WithCallDepth` make of a snapshot. -/
inductive Reachable : sdLogr → Prop where
  | root (o : Options) (info : RuntimeInfo) (w : World) : Reachable (NewWithOptions o info w).1
  | init (l : sdLogr) (info : RuntimeInfo) : Reachable l → Reachable (Init l info)
  | withName (l : sdLogr) (name : GoString) : Reachable l → Reachable (WithName l name)
  | withValues (l : sdLogr) (kvList : List Value) (order : RangeOrder) (w : World) :
      Reachable l → Reachable (WithValues l kvList order w).1
  | withCallDepth (l : sdLogr) (delta : Int) : Reachable l → Reachable (WithCallDepth l delta)

/-- One of the two separators of `mergeSeparators`. -/
def isSeparator (sep : GoString) : Prop := sep = ascii ", " ∨ sep = ascii ": "

/-! ## Concrete inputs -/

/-- The runtime information `logr.New` hands to `Init`. -/
def frontEndInfo : RuntimeInfo := ⟨1⟩

/-- The root sink of `New()` in the empty world. -/
def rootSink : sdLogr := (New frontEndInfo World.empty).1

/-- The world after `New()` in the empty world. -/
def rootWorld : World := (New frontEndInfo World.empty).2

/-- A caller resolution that succeeds with the given file and line. -/
def callerAt (file : GoString) (line : Int) : Caller := fun _ => some (file, line)

/-- A caller resolution that fails. -/
def callerUnknown : Caller := fun _ => none

end Sdlogr

namespace Sdlogr

/-! ## The writer and the assembled buffers -/

theorem mergeSeparators_mod (i : Nat) :
    mergeSeparators (i % 2) = if i % 2 = 0 then ascii ": " else ascii ", " := by
  rcases Nat.mod_two_eq_zero_or_one i with h | h <;> simp [h, mergeSeparators]

theorem bufferKvLoop_eq (kv : List Value) : ∀ (i : Nat) (buf : GoString),
    bufferKvLoop i kv buf = buf ++ pairsText i kv := by
  induction kv with
  | nil => intro i buf; simp [bufferKvLoop, pairsText]
  | cons v rest ih =>
    intro i buf
    simp only [bufferKvLoop, pairsText, ih, mergeSeparators_mod, List.append_assoc]

theorem bufferKv_eq (buf : GoString) (kv : List Value) :
    bufferKv buf kv kv.length = buf ++ pairsText 0 kv := by
  simp [bufferKv, bufferKvLoop_eq]

theorem exists_append_two (buf : GoString) (h : 2 ≤ buf.length) :
    ∃ pre a b, buf = pre ++ [a, b] := by
  have hd : (buf.drop (buf.length - 2)).length = 2 := by simp; omega
  match hx : buf.drop (buf.length - 2), hd with
  | [a, b], _ => exact ⟨buf.take (buf.length - 2), a, b, by rw [← hx, List.take_append_drop]⟩

theorem write_eq (out : Nat) (buf : GoString) (w : World) (h : 2 ≤ buf.length) :
    write out buf w = some { w with written := w.written ++ [(out, replaceLastTwo buf)] } := by
  obtain ⟨pre, a, b, rfl⟩ := exists_append_two buf h
  have h2 : ¬ (pre ++ [a, b]).length < 2 := by simp
  simp only [write, h2, if_false, replaceLastTwo]
  have e1 : (pre ++ [a, b]).length - 1 = pre.length + 1 := by simp
  have e2 : (pre ++ [a, b]).length - 2 = pre.length := by simp
  have e3 : List.take (pre.length + 1) (pre ++ [a, b]) = pre ++ [a] := by
    simp [List.take_append_eq_append_take]
  have e4 : List.take pre.length (pre ++ [a, b]) = pre := by
    simp [List.take_append_eq_append_take]
  simp only [e1, e2, e3, e4, Nat.add_sub_cancel]
  by_cases ha : a = 10
  · subst ha; simp
  · simp [ha]

theorem infoAssemble_fst (l : sdLogr) (caller : Caller) (msg : GoString) (kv : List Value) :
    (infoAssemble l caller msg kv).1
      = sdLvlInfo ++ namePart l ++ (if l.logCallerInfo then callerInfo caller l.depth else [])
          ++ msgPart msg ++ l.valuesStr ++ pairsText 0 kv := by
  have hk : kv = [] → pairsText 0 kv = [] := by intro h; subst h; rfl
  unfold infoAssemble namePart msgPart
  by_cases h1 : l.prefix_.length > 0 <;> by_cases h2 : l.logCallerInfo = true <;>
    by_cases h3 : msg = [] <;> by_cases h4 : l.valuesStr = [] <;>
    by_cases h5 : kv.length > 0 <;>
    simp [h1, h2, h3, h4, h5, bufferKv_eq] <;>
    simp_all

theorem infoAssemble_snd (l : sdLogr) (caller : Caller) (msg : GoString) (kv : List Value) :
    (infoAssemble l caller msg kv).2 = decide (msg ≠ [] ∨ l.valuesStr ≠ [] ∨ kv ≠ []) := by
  unfold infoAssemble
  by_cases h3 : msg = [] <;> by_cases h4 : l.valuesStr = [] <;> cases kv <;>
    simp [h3, h4]

theorem sdLvlInfo_length : sdLvlInfo.length = 3 := rfl

theorem sdLvlError_length : sdLvlError.length = 3 := rfl

theorem infoAssemble_length (l : sdLogr) (caller : Caller) (msg : GoString) (kv : List Value) :
    3 ≤ (infoAssemble l caller msg kv).1.length := by
  rw [infoAssemble_fst]
  simp only [List.length_append, sdLvlInfo_length]
  omega

theorem Info_eq (l : sdLogr) (caller : Caller) (level : Int) (msg : GoString)
    (kv : List Value) (w : World) :
    Info l caller level msg kv w
      = if msg ≠ [] ∨ l.valuesStr ≠ [] ∨ kv ≠ [] then
          some { w with written :=
            w.written ++ [(l.out, replaceLastTwo (infoAssemble l caller msg kv).1)] }
        else some w := by
  unfold Info
  simp only [infoAssemble_snd]
  by_cases h : msg ≠ [] ∨ l.valuesStr ≠ [] ∨ kv ≠ []
  · have hl := infoAssemble_length l caller msg kv
    simp only [h, decide_True, if_true]
    exact write_eq _ _ _ (by omega)
  · simp only [h, decide_False, if_false]
    simp

theorem errorAssemble_eq (l : sdLogr) (caller : Caller) (err : Option GoString)
    (msg : GoString) (kv : List Value) :
    errorAssemble l caller err msg kv
      = sdLvlError ++ namePart l ++ callerInfo caller l.depth ++ errPart err
          ++ msgPart msg ++ l.valuesStr ++ pairsText 0 kv := by
  have hk : kv = [] → pairsText 0 kv = [] := by intro h; subst h; rfl
  unfold errorAssemble namePart msgPart errPart
  cases err <;>
    by_cases h1 : l.prefix_.length > 0 <;>
    by_cases h3 : msg = [] <;> by_cases h4 : l.valuesStr = [] <;>
    by_cases h5 : kv.length > 0 <;>
    simp [h1, h3, h4, h5, bufferKv_eq] <;>
    simp_all

theorem errPart_length (err : Option GoString) : 2 ≤ (errPart err).length := by
  cases err <;> simp [errPart, ascii]

theorem Error_eq (l : sdLogr) (caller : Caller) (err : Option GoString) (msg : GoString)
    (kv : List Value) (w : World) :
    Error l caller err msg kv w
      = some { w with written :=
          w.written ++ [(l.out, replaceLastTwo (errorAssemble l caller err msg kv))] } := by
  unfold Error
  apply write_eq
  rw [errorAssemble_eq]
  have := errPart_length err
  simp only [List.length_append, sdLvlError_length]
  omega

theorem replaceLastTwo_append (x y : GoString) (h : 2 ≤ y.length) :
    replaceLastTwo (x ++ y) = x ++ replaceLastTwo y := by
  unfold replaceLastTwo
  have e : (x ++ y).length - 2 = x.length + (y.length - 2) := by
    simp only [List.length_append]; omega
  rw [e, List.take_append]
  simp

theorem replaceLastTwo_getLast (buf : GoString) : (replaceLastTwo buf).getLast? = some 10 := by
  simp [replaceLastTwo]

/-! ## Suppression and the written line -/

/-- Claim C1. A snapshot with an empty `valuesStr`, whatever its name, depth and
caller flag, writes nothing when `Info` gets an empty message and no call-site
items: the world is returned as it was. -/
theorem C1_info_without_data_writes_nothing (l : sdLogr) (caller : Caller) (level : Int)
    (w : World) (h : l.valuesStr = []) :
    Info l caller level [] [] w = some w := by
  rw [Info_eq]
  simp [h]

/-- Claim C1 at the root sink renamed `name1`. -/
theorem C1_info_without_data_writes_nothing_witness :
    (WithName rootSink (ascii "name1")).valuesStr = []
      ∧ Info (WithName rootSink (ascii "name1")) (callerAt (ascii "/app/main.go") 14) 0 [] []
          rootWorld = some rootWorld :=
  ⟨rfl, C1_info_without_data_writes_nothing (WithName rootSink (ascii "name1"))
    (callerAt (ascii "/app/main.go") 14) 0 rootWorld rfl⟩

/-- Claim C2, as stated, fails: `Info` with the message `starting:` on the root
sink writes a line whose byte before the line feed is a colon. -/
theorem C2_counterexample_separator_before_line_feed :
    writesOf (Info rootSink (callerAt (ascii "/app/main.go") 7) 0 (ascii "starting:") []
        rootWorld)
      = some [(stdout, ascii "<6>main.go: 7, starting:" ++ [10])]
    ∧ endsInOneLineFeed (ascii "<6>main.go: 7, starting:" ++ [10]) = false := by
  decide

/-- Claim C2, amended. An `Info` call with a non-empty message, a non-empty
`valuesStr` or a non-empty `kvList`, and every `Error` call, makes exactly one
write to the destination; the bytes written are the assembled buffer with its
final two bytes replaced by one line feed, so the last byte is a line feed. The
byte before it is the last byte of the content assembled before the final
separator: the line ends in exactly one line feed, with no separator character
before it, exactly when that byte is no line feed, comma, colon or space. -/
theorem C2_one_write_ending_in_line_feed (l : sdLogr) (caller : Caller) (level : Int)
    (err : Option GoString) (msg : GoString) (kv : List Value) (w : World) :
    ((msg ≠ [] ∨ l.valuesStr ≠ [] ∨ kv ≠ []) →
        Info l caller level msg kv w
          = some { w with written :=
              w.written ++ [(l.out, replaceLastTwo (infoAssemble l caller msg kv).1)] })
    ∧ Error l caller err msg kv w
        = some { w with written :=
            w.written ++ [(l.out, replaceLastTwo (errorAssemble l caller err msg kv))] }
    ∧ (replaceLastTwo (infoAssemble l caller msg kv).1).getLast? = some 10
    ∧ (replaceLastTwo (errorAssemble l caller err msg kv)).getLast? = some 10
    ∧ (∀ (content : GoString) (c a b : Nat),
        replaceLastTwo (content ++ [c, a, b]) = content ++ [c, 10]
          ∧ endsInOneLineFeed (content ++ [c, 10])
              = !(decide (c = 10) || decide (c = 44) || decide (c = 58) || decide (c = 32))) := by
  refine ⟨?_, Error_eq l caller err msg kv w, replaceLastTwo_getLast _,
    replaceLastTwo_getLast _, ?_⟩
  · intro h
    rw [Info_eq, if_pos h]
  · intro content c a b
    refine ⟨?_, ?_⟩
    · have e : content ++ [c, a, b] = (content ++ [c]) ++ [a, b] := by simp
      rw [e, replaceLastTwo_append _ _ (by simp)]
      simp [replaceLastTwo]
    · simp [endsInOneLineFeed]

/-- Claim C2, amended, at `Info("msg", "k")` on the root sink. -/
theorem C2_one_write_ending_in_line_feed_witness :
    (ascii "msg" ≠ [] ∨ rootSink.valuesStr ≠ [] ∨ [Value.str (ascii "k")] ≠ [])
    ∧ Info rootSink (callerAt (ascii "/app/main.go") 25) 0 (ascii "msg")
          [Value.str (ascii "k")] rootWorld
        = some { rootWorld with written :=
            rootWorld.written ++ [(rootSink.out, replaceLastTwo (infoAssemble rootSink
              (callerAt (ascii "/app/main.go") 25) (ascii "msg") [Value.str (ascii "k")]).1)] }
    ∧ replaceLastTwo (infoAssemble rootSink (callerAt (ascii "/app/main.go") 25) (ascii "msg")
          [Value.str (ascii "k")]).1
        = ascii "<6>main.go: 25, msg, k" ++ [10] :=
  ⟨by decide,
    (C2_one_write_ending_in_line_feed rootSink (callerAt (ascii "/app/main.go") 25) 0 none
      (ascii "msg") [Value.str (ascii "k")] rootWorld).1 (by decide),
    by decide⟩

/-! ## The file component -/

theorem lastSlashLoop_eq (str : GoString) (n : Nat) (h47 : str.getD n 0 = 47) :
    ∀ j : Nat, (∀ t, n < t → t ≤ n + j → str.getD t 0 ≠ 47) →
      lastSlashLoop str (n + j) = n := by
  intro j
  induction j with
  | zero =>
    intro _
    cases n with
    | zero => rfl
    | succ i => rw [Nat.add_zero, lastSlashLoop, if_pos h47]
  | succ j ih =>
    intro hno
    have h1 : str.getD (n + j + 1) 0 ≠ 47 := hno (n + j + 1) (by omega) (by omega)
    have e : n + (j + 1) = (n + j) + 1 := by omega
    rw [e, lastSlashLoop, if_neg h1]
    exact ih (fun t ht1 ht2 => hno t ht1 (by omega))

theorem getD_after_last_slash (pre suf : GoString) (h : 47 ∉ suf) (t : Nat)
    (ht : pre.length < t) : (pre ++ 47 :: suf).getD t 0 ≠ 47 := by
  obtain ⟨i, rfl⟩ : ∃ i, t = pre.length + (i + 1) := ⟨t - pre.length - 1, by omega⟩
  rw [List.getD_eq_getElem?_getD, List.getElem?_append_right (by omega)]
  have e : pre.length + (i + 1) - pre.length = i + 1 := by omega
  rw [e, List.getElem?_cons_succ]
  cases hs : suf[i]? with
  | none => simp
  | some b =>
    intro hb
    have hb2 : b = 47 := by simpa using hb
    have hm : b ∈ suf := List.getElem?_mem hs
    rw [hb2] at hm
    exact h hm

theorem fileComponent_of_last_slash (pre suf : GoString) (h : 47 ∉ suf) :
    (pre ++ 47 :: suf).drop (getLastSlashPos (pre ++ 47 :: suf) + 1).toNat = suf
      ∧ basenameSpec (pre ++ 47 :: suf) = suf := by
  refine ⟨?_, ?_⟩
  · have hlen : ¬ (pre ++ 47 :: suf).length = 0 := by simp
    have h47 : (pre ++ 47 :: suf).getD pre.length 0 = 47 := by
      rw [List.getD_eq_getElem?_getD, List.getElem?_append_right (le_refl _)]
      simp
    have hloop := lastSlashLoop_eq (pre ++ 47 :: suf) pre.length h47 suf.length
      (fun t ht _ => getD_after_last_slash pre suf h t ht)
    have e : (pre ++ 47 :: suf).length - 1 = pre.length + suf.length := by simp
    unfold getLastSlashPos
    rw [if_neg hlen, e, hloop]
    have e2 : ((pre.length : Int) + 1).toNat = pre.length + 1 := by omega
    rw [e2, List.drop_append]
    rfl
  · unfold basenameSpec
    have hr : (pre ++ 47 :: suf).reverse = suf.reverse ++ 47 :: pre.reverse := by simp
    rw [hr, List.takeWhile_append_of_pos]
    · simp
    · intro b hb
      have hb2 : b ∈ suf := List.mem_reverse.mp hb
      have : b ≠ 47 := fun hb3 => h (hb3 ▸ hb2)
      simpa using this

theorem fileComponent_eq_basenameSpec (file : GoString) (h : 47 ∈ file ∨ file = []) :
    file.drop (getLastSlashPos file + 1).toNat = basenameSpec file := by
  rcases h with h | h
  · have hr : 47 ∈ file.reverse := List.mem_reverse.mpr h
    obtain ⟨suf, pre, hsp, hno⟩ := List.eq_append_cons_of_mem hr
    have hf : file = pre.reverse ++ 47 :: suf.reverse := by
      have := congrArg List.reverse hsp
      simpa using this
    have hno2 : 47 ∉ suf.reverse := fun hm => hno (List.mem_reverse.mp hm)
    rw [hf, (fileComponent_of_last_slash _ _ hno2).1, (fileComponent_of_last_slash _ _ hno2).2]
  · subst h
    rfl

theorem Info_writes_spec_line (l : sdLogr) (caller : Caller) (level : Int) (msg : GoString)
    (kv : List Value) (w : World)
    (hfile : ∀ file line, caller l.depth = some (file, line) → 47 ∈ file ∨ file = [])
    (hdata : msg ≠ [] ∨ l.valuesStr ≠ [] ∨ kv ≠ []) :
    Info l caller level msg kv w
      = some { w with written := w.written
          ++ [(l.out, replaceLastTwo (infoLineSpec l (caller l.depth) msg kv))] } := by
  rw [Info_eq, if_pos hdata, infoAssemble_fst]
  have hc : callerInfo caller l.depth
      = (match caller l.depth with
          | some (file, line) => basenameSpec file ++ ascii ": " ++ Itoa line ++ ascii ", "
          | none => ascii "???: 0, ") := by
    unfold callerInfo
    cases hres : caller l.depth with
    | none => rfl
    | some fl =>
      obtain ⟨file, line⟩ := fl
      simp only []
      rw [fileComponent_eq_basenameSpec file (hfile file line hres)]
  rw [hc]
  rfl

/-- Claim C3, evaluated where it fails. For a caller file without a slash,
`main.go` at line 7, `Info("msg")` on the root sink writes the file component
without its first byte, where the line of the specification (`infoLineSpec`,
final two bytes replaced by a line feed) has the whole file name. For a file
with a slash the two agree: after `WithValues("k", "v")` on the root sink,
`Info("")` called from `/app/main.go` at line 70 writes `<6>main.go: 70, k: v`
and a line feed. -/
theorem C3_info_line_drops_first_byte_of_slashless_file :
    writesOf (Info rootSink (callerAt (ascii "main.go") 7) 0 (ascii "msg") [] rootWorld)
      = some [(stdout, ascii "<6>ain.go: 7, msg" ++ [10])]
    ∧ replaceLastTwo (infoLineSpec rootSink (some (ascii "main.go", 7)) (ascii "msg") [])
      = ascii "<6>main.go: 7, msg" ++ [10]
    ∧ writesOf (Info
          (WithValues rootSink [Value.str (ascii "k"), Value.str (ascii "v")]
            RangeOrder.stored rootWorld).1
          (callerAt (ascii "/app/main.go") 70) 0 [] []
          (WithValues rootSink [Value.str (ascii "k"), Value.str (ascii "v")]
            RangeOrder.stored rootWorld).2)
      = some [(stdout, ascii "<6>main.go: 70, k: v" ++ [10])] := by
  decide

theorem errPart_eq (err : Option GoString) : errPart err = errText err ++ ascii ", " := by
  cases err <;> rfl

/-- Claim C4. `Error` always makes its one write, whatever the message, the
values and the flag `logCallerInfo`. The buffer it assembles is the code `<3>`,
the name part, the caller information (the marker `???: 0, ` when the caller is
not resolved), the text of the error followed by comma-space (`<nil>, ` for a
nil error), then message, inherited values and call-site items; the line written
is that buffer with its final two bytes replaced by a line feed, so it starts
with `<3>`, the name part, the caller information and the text of the error.
On the root sink `Error(nil, "msg")` writes `<3>main.go: 7, <nil>, msg` and a
line feed, also when `logCallerInfo` is false. -/
theorem C4_error_always_writes_with_caller_and_error_text :
    (∀ (l : sdLogr) (caller : Caller) (err : Option GoString) (msg : GoString)
        (kv : List Value) (w : World),
      Error l caller err msg kv w
          = some { w with written := w.written ++ [(l.out, replaceLastTwo
              (ascii "<3>" ++ namePart l ++ callerInfo caller l.depth ++ errPart err
                ++ msgPart msg ++ l.valuesStr ++ pairsText 0 kv))] }
        ∧ replaceLastTwo (ascii "<3>" ++ namePart l ++ callerInfo caller l.depth ++ errPart err
              ++ msgPart msg ++ l.valuesStr ++ pairsText 0 kv)
            = ascii "<3>" ++ namePart l ++ callerInfo caller l.depth ++ errText err
                ++ replaceLastTwo (ascii ", " ++ msgPart msg ++ l.valuesStr ++ pairsText 0 kv))
    ∧ (∀ depth : Int, callerInfo callerUnknown depth = ascii "???: 0, ")
    ∧ errPart none = ascii "<nil>, "
    ∧ (∀ text : GoString, errPart (some text) = text ++ ascii ", ")
    ∧ writesOf (Error rootSink (callerAt (ascii "/app/main.go") 7) none (ascii "msg") []
          rootWorld)
        = some [(stdout, ascii "<3>main.go: 7, <nil>, msg" ++ [10])]
    ∧ writesOf (Error { rootSink with logCallerInfo := false }
          (callerAt (ascii "/app/main.go") 7) none (ascii "msg") [] rootWorld)
        = some [(stdout, ascii "<3>main.go: 7, <nil>, msg" ++ [10])]
    ∧ writesOf (Error { rootSink with logCallerInfo := false } callerUnknown none [] []
          rootWorld)
        = some [(stdout, ascii "<3>???: 0, <nil>" ++ [10])] := by
  refine ⟨?_, fun _ => rfl, rfl, fun _ => rfl, by decide, by decide, by decide⟩
  intro l caller err msg kv w
  refine ⟨?_, ?_⟩
  · rw [Error_eq, errorAssemble_eq]
    rfl
  · rw [errPart_eq]
    have e : ascii "<3>" ++ namePart l ++ callerInfo caller l.depth
          ++ (errText err ++ ascii ", ") ++ msgPart msg ++ l.valuesStr ++ pairsText 0 kv
        = (ascii "<3>" ++ namePart l ++ callerInfo caller l.depth ++ errText err)
          ++ (ascii ", " ++ msgPart msg ++ l.valuesStr ++ pairsText 0 kv) := by
      simp only [List.append_assoc]
    rw [e, replaceLastTwo_append]
    simp only [List.length_append]
    have : (ascii ", ").length = 2 := rfl
    omega

/-! ## Names and levels -/

theorem Init_level (l : sdLogr) (info : RuntimeInfo) : (Init l info).level = l.level := by
  unfold Init
  split <;> rfl

theorem NewWithOptions_level (o : Options) (info : RuntimeInfo) (w : World) :
    (NewWithOptions o info w).1.level = if o.Verbosity < 0 then 0 else o.Verbosity := by
  unfold NewWithOptions
  simp only [Init_level]
  by_cases h1 : o.Depth < 0 <;> by_cases h2 : o.Verbosity < 0 <;>
    by_cases h3 : o.Out = none <;> simp [h1, h2, h3]

theorem NewWithOptions_prefix (o : Options) (info : RuntimeInfo) (w : World) :
    (NewWithOptions o info w).1.prefix_ = [] := by
  unfold NewWithOptions Init
  dsimp only
  split <;> rfl

/-- Claim C9. `WithName(n)` on a snapshot with name `p` yields the name `n` when
`p` is empty and `p`, a slash and `n` otherwise. So on a root sink, whose name
is empty, `WithName("a").WithName("b")` yields the name `a/b`, and the line a
subsequent `Info("msg")` writes begins with `<6>a/b: `. -/
theorem C9_withName_joins_names_with_slash :
    (∀ (l : sdLogr) (n : GoString),
      (WithName l n).prefix_ = if l.prefix_ = [] then n else l.prefix_ ++ ascii "/" ++ n)
    ∧ (∀ (o : Options) (info : RuntimeInfo) (w0 : World),
        (WithName (WithName (NewWithOptions o info w0).1 (ascii "a")) (ascii "b")).prefix_
          = ascii "a/b")
    ∧ (∀ (o : Options) (info : RuntimeInfo) (w0 : World) (caller : Caller) (level : Int)
        (kv : List Value) (w : World),
        ∃ rest : GoString,
          Info (WithName (WithName (NewWithOptions o info w0).1 (ascii "a")) (ascii "b"))
              caller level (ascii "msg") kv w
            = some { w with written := w.written
                ++ [((NewWithOptions o info w0).1.out, ascii "<6>a/b: " ++ rest)] }) := by
  have h1 : ∀ (l : sdLogr) (n : GoString),
      (WithName l n).prefix_ = if l.prefix_ = [] then n else l.prefix_ ++ ascii "/" ++ n := by
    intro l n
    unfold WithName
    by_cases h : l.prefix_ = []
    · simp [h]
    · have hl : l.prefix_.length > 0 := List.length_pos.mpr h
      simp [h, hl]
  have h2 : ∀ (o : Options) (info : RuntimeInfo) (w0 : World),
      (WithName (WithName (NewWithOptions o info w0).1 (ascii "a")) (ascii "b")).prefix_
        = ascii "a/b" := by
    intro o info w0
    rw [h1, h1, NewWithOptions_prefix]
    decide
  refine ⟨h1, h2, ?_⟩
  intro o info w0 caller level kv w
  have hm : ascii "msg" ≠ [] ∨
      (WithName (WithName (NewWithOptions o info w0).1 (ascii "a")) (ascii "b")).valuesStr ≠ []
      ∨ kv ≠ [] := Or.inl (by decide)
  rw [Info_eq, if_pos hm, infoAssemble_fst]
  have hn : namePart (WithName (WithName (NewWithOptions o info w0).1 (ascii "a")) (ascii "b"))
      = ascii "a/b: " := by
    unfold namePart
    rw [h2]
    decide
  rw [hn]
  refine ⟨replaceLastTwo ((if (WithName (WithName (NewWithOptions o info w0).1 (ascii "a"))
      (ascii "b")).logCallerInfo = true then
        callerInfo caller (WithName (WithName (NewWithOptions o info w0).1 (ascii "a"))
          (ascii "b")).depth else []) ++ msgPart (ascii "msg")
      ++ (WithName (WithName (NewWithOptions o info w0).1 (ascii "a")) (ascii "b")).valuesStr
      ++ pairsText 0 kv), ?_⟩
  have ho : (WithName (WithName (NewWithOptions o info w0).1 (ascii "a")) (ascii "b")).out
      = (NewWithOptions o info w0).1.out := by
    unfold WithName
    split <;> split <;> rfl
  rw [ho]
  have e : ∀ x y z u : GoString,
      sdLvlInfo ++ ascii "a/b: " ++ x ++ y ++ z ++ u = ascii "<6>a/b: " ++ (x ++ y ++ z ++ u) := by
    intro x y z u
    simp only [List.append_assoc]
    rfl
  rw [e, replaceLastTwo_append]
  have : (msgPart (ascii "msg")).length = 5 := by decide
  simp only [List.length_append]
  omega

/-- Claim C10. The root sink of `NewWithOptions(o)` answers `Enabled(n)` with
true exactly when `n` is at most the larger of `o.Verbosity` and 0. So
`Enabled(0)` is true on every root, and with `Verbosity` 3 `Enabled(3)` is true
and `Enabled(4)` is false. -/
theorem C10_enabled_iff_at_most_clamped_verbosity :
    (∀ (o : Options) (info : RuntimeInfo) (w : World) (n : Int),
      Enabled (NewWithOptions o info w).1 n = true ↔ n ≤ max o.Verbosity 0)
    ∧ (∀ (o : Options) (info : RuntimeInfo) (w : World),
        Enabled (NewWithOptions o info w).1 0 = true)
    ∧ (∀ (depth : Int) (flag : Bool) (out : Option Nat) (info : RuntimeInfo) (w : World),
        Enabled (NewWithOptions ⟨depth, 3, flag, out⟩ info w).1 3 = true
          ∧ Enabled (NewWithOptions ⟨depth, 3, flag, out⟩ info w).1 4 = false) := by
  have hl : ∀ (o : Options) (info : RuntimeInfo) (w : World),
      (NewWithOptions o info w).1.level = max o.Verbosity 0 := by
    intro o info w
    rw [NewWithOptions_level]
    by_cases hv : o.Verbosity < 0
    · rw [if_pos hv, max_eq_right (le_of_lt hv)]
    · rw [if_neg hv, max_eq_left (not_lt.mp hv)]
  have h1 : ∀ (o : Options) (info : RuntimeInfo) (w : World) (n : Int),
      Enabled (NewWithOptions o info w).1 n = true ↔ n ≤ max o.Verbosity 0 := by
    intro o info w n
    unfold Enabled
    rw [hl]
    simp
  refine ⟨h1, ?_, ?_⟩
  · intro o info w
    rw [h1]
    exact le_max_right _ _
  · intro depth flag out info w
    refine ⟨?_, ?_⟩
    · rw [h1]
      show (3 : Int) ≤ max 3 0
      decide
    · cases hb : Enabled (NewWithOptions ⟨depth, 3, flag, out⟩ info w).1 4
      · rfl
      · have h4 := (h1 ⟨depth, 3, flag, out⟩ info w 4).mp hb
        have h5 : ¬ ((4 : Int) ≤ max 3 0) := by decide
        exact absurd h4 h5

/-! ## Inherited values -/

theorem foldl_segment (es : List Entry) : ∀ init : GoString,
    es.foldl (fun acc e => acc ++ segment e) init = init ++ concatSegments es := by
  induction es with
  | nil => intro init; simp [concatSegments]
  | cons e rest ih => intro init; simp [List.foldl_cons, ih, concatSegments]

theorem rebuildValuesStr_eq (es : List Entry) : rebuildValuesStr es = concatSegments es := by
  simp [rebuildValuesStr, foldl_segment]

theorem WithValues_of_ne_nil (l : sdLogr) (kv : List Value) (order : RangeOrder) (w : World)
    (h : kv ≠ []) :
    WithValues l kv order w
      = ({ l with valuesStr :=
            concatSegments (order.visit (insertPairs (padKv kv) (w.maps l.valuesMap)).entries) },
         { w with maps :=
            Function.update w.maps l.valuesMap (insertPairs (padKv kv) (w.maps l.valuesMap)) }) := by
  have hn : ¬ kv.length = 0 := fun h0 => h (List.length_eq_zero.mp h0)
  unfold WithValues
  simp only [hn, if_false, Function.update_same, rebuildValuesStr_eq]

theorem mapOf_WithValues (l : sdLogr) (kv : List Value) (order : RangeOrder) (w : World)
    (h : kv ≠ []) :
    mapOf (WithValues l kv order w) = insertPairs (padKv kv) (w.maps l.valuesMap) := by
  rw [WithValues_of_ne_nil l kv order w h]
  simp [mapOf]

theorem valuesStr_WithValues (l : sdLogr) (kv : List Value) (order : RangeOrder) (w : World)
    (h : kv ≠ []) :
    (WithValues l kv order w).1.valuesStr
      = concatSegments (order.visit (mapOf (WithValues l kv order w)).entries) := by
  rw [mapOf_WithValues l kv order w h, WithValues_of_ne_nil l kv order w h]

theorem WithValues_valuesMap (l : sdLogr) (kv : List Value) (order : RangeOrder) (w : World) :
    (WithValues l kv order w).1.valuesMap = l.valuesMap := by
  unfold WithValues
  dsimp only
  split <;> rfl

theorem filter_key_eq_singleton (key : GoString) (v : Value) :
    ∀ es : List Entry, es.NodupKeys → (⟨key, v⟩ : Entry) ∈ es →
      es.filter (fun e => decide (e.1 = key)) = [⟨key, v⟩] := by
  intro es
  induction es with
  | nil => intro _ hm; simp at hm
  | cons e rest ih =>
    intro hnd hm
    rw [List.nodupKeys_cons] at hnd
    rcases List.mem_cons.mp hm with he | hr
    · subst he
      have hrest : rest.filter (fun e => decide (e.1 = key)) = [] := by
        rw [List.filter_eq_nil_iff]
        intro x hx hk
        have hxk : x.1 = key := by simpa using hk
        have hmem : x.1 ∈ rest.keys := List.mem_keys_of_mem hx
        rw [hxk] at hmem
        exact hnd.1 hmem
      simp [List.filter_cons, hrest]
    · have hne : ¬ e.1 = key := by
        intro hk
        have hmem : key ∈ rest.keys := List.mem_keys_of_mem hr
        rw [← hk] at hmem
        exact hnd.1 hmem
      simp [List.filter_cons, hne, ih hnd.2 hr]

theorem WithValues_rendersOnce (l : sdLogr) (kv : List Value) (order : RangeOrder) (w : World)
    (h : kv ≠ []) (key : GoString) (v : Value)
    (hl : (mapOf (WithValues l kv order w)).lookup key = some v) :
    rendersOnce (WithValues l kv order w) key v := by
  refine ⟨order.visit (mapOf (WithValues l kv order w)).entries, order.perm _,
    valuesStr_WithValues l kv order w h, ?_⟩
  apply filter_key_eq_singleton
  · exact (List.perm_nodupKeys (order.perm _)).mpr (mapOf (WithValues l kv order w)).nodupKeys
  · rw [(order.perm _).mem_iff]
    exact AList.mem_lookup_iff.mp hl

/-- Claim C5, evaluated where it fails. On the root sink `p`, the child
`p.WithValues("b", "2")` derived alone has no key `a` and the string `b: 2, `;
derived after the sibling `p.WithValues("a", "1")` it has the key `a` of the
sibling in its map and the segment of the sibling in its string: both children
write into the one map the parent holds. -/
theorem C5_sibling_values_reach_the_other_child :
    (mapOf (WithValues rootSink [Value.str (ascii "b"), Value.str (ascii "2")]
        RangeOrder.stored rootWorld)).lookup (ascii "a") = none
    ∧ (WithValues rootSink [Value.str (ascii "b"), Value.str (ascii "2")]
        RangeOrder.stored rootWorld).1.valuesStr = ascii "b: 2, "
    ∧ (mapOf (WithValues rootSink [Value.str (ascii "b"), Value.str (ascii "2")]
        RangeOrder.stored
        (WithValues rootSink [Value.str (ascii "a"), Value.str (ascii "1")]
          RangeOrder.stored rootWorld).2)).lookup (ascii "a") = some (Value.str (ascii "1"))
    ∧ (WithValues rootSink [Value.str (ascii "b"), Value.str (ascii "2")]
        RangeOrder.stored
        (WithValues rootSink [Value.str (ascii "a"), Value.str (ascii "1")]
          RangeOrder.stored rootWorld).2).1.valuesStr = ascii "b: 2, a: 1, "
    ∧ (WithValues rootSink [Value.str (ascii "b"), Value.str (ascii "2")]
        RangeOrder.reversed
        (WithValues rootSink [Value.str (ascii "a"), Value.str (ascii "1")]
          RangeOrder.stored rootWorld).2).1.valuesStr = ascii "a: 1, b: 2, " := by
  decide

theorem world_written_append_nil (w : World) : { w with written := w.written ++ [] } = w := by
  cases w
  simp

/-- Claim C6. A derivation (`WithName`, `WithValues` with any list and any
order of the map, `WithCallDepth`) works on a copy of the snapshot `p` and
writes nothing. In the world it leaves, `Info` and `Error` on the original `p`
append the same writes, byte for byte, as in the world before it, for every
message, error, call-site list and caller resolution. -/
theorem C6_derivation_leaves_original_output_unchanged (d : Derivation) (p : sdLogr)
    (w : World) (caller : Caller) (level : Int) (err : Option GoString) (msg : GoString)
    (kv : List Value) :
    (d.apply p w).2.written = w.written
    ∧ ∃ ws es : List (Nat × GoString),
        Info p caller level msg kv w = some { w with written := w.written ++ ws }
        ∧ Info p caller level msg kv (d.apply p w).2
            = some { (d.apply p w).2 with written := (d.apply p w).2.written ++ ws }
        ∧ Error p caller err msg kv w = some { w with written := w.written ++ es }
        ∧ Error p caller err msg kv (d.apply p w).2
            = some { (d.apply p w).2 with written := (d.apply p w).2.written ++ es } := by
  refine ⟨?_, ?_⟩
  · cases d with
    | withName name => rfl
    | withCallDepth depth => rfl
    | withValues kvd order =>
      simp only [Derivation.apply, WithValues]
      split <;> rfl
  · refine ⟨if msg ≠ [] ∨ p.valuesStr ≠ [] ∨ kv ≠ [] then
        [(p.out, replaceLastTwo (infoAssemble p caller msg kv).1)] else [],
      [(p.out, replaceLastTwo (errorAssemble p caller err msg kv))], ?_, ?_,
      Error_eq p caller err msg kv w, Error_eq p caller err msg kv _⟩
    · rw [Info_eq]
      by_cases h : msg ≠ [] ∨ p.valuesStr ≠ [] ∨ kv ≠ []
      · simp only [if_pos h]
      · simp only [if_neg h, world_written_append_nil]
    · rw [Info_eq]
      by_cases h : msg ≠ [] ∨ p.valuesStr ≠ [] ∨ kv ≠ []
      · simp only [if_pos h]
      · simp only [if_neg h, world_written_append_nil]

theorem insertPairs_pair (k v : Value) (m : GoMap) :
    insertPairs (padKv [k, v]) m = m.insert (keyText k) v := by
  simp [padKv, insertPairs]

theorem insertPairs_two_pairs (k v1 v2 : Value) (m : GoMap) :
    insertPairs (padKv [k, v1, k, v2]) m = m.insert (keyText k) v2 := by
  simp [padKv, insertPairs]

theorem mapOf_WithValues_chain (s : sdLogr) (kv1 kv2 : List Value) (o1 o2 : RangeOrder)
    (w : World) (h1 : kv1 ≠ []) (h2 : kv2 ≠ []) :
    mapOf (WithValues (WithValues s kv1 o1 w).1 kv2 o2 (WithValues s kv1 o1 w).2)
      = insertPairs (padKv kv2) (insertPairs (padKv kv1) (w.maps s.valuesMap)) := by
  rw [mapOf_WithValues _ kv2 o2 _ h2]
  have e : (WithValues s kv1 o1 w).2.maps (WithValues s kv1 o1 w).1.valuesMap
      = mapOf (WithValues s kv1 o1 w) := rfl
  rw [e, mapOf_WithValues s kv1 o1 w h1]

/-- Claim C7. Setting the pair `k`, `v` a second time leaves the map as the
first call made it, and the string of the result has exactly one segment for
the key. Setting `k` to `v1` and then to `v2`, in two calls or in one, leaves
`k` mapped to `v2` alone: the string has exactly one segment for the key, the
key, colon-space, the text of `v2` and comma-space. The key of a pair is the
text `keyText k`. -/
theorem C7_withValues_keeps_one_entry_per_key (s : sdLogr) (k v v1 v2 : Value)
    (o1 o2 : RangeOrder) (w : World) :
    mapOf (WithValues (WithValues s [k, v] o1 w).1 [k, v] o2 (WithValues s [k, v] o1 w).2)
        = mapOf (WithValues s [k, v] o1 w)
    ∧ rendersOnce
        (WithValues (WithValues s [k, v] o1 w).1 [k, v] o2 (WithValues s [k, v] o1 w).2)
        (keyText k) v
    ∧ (mapOf (WithValues (WithValues s [k, v1] o1 w).1 [k, v2] o2
          (WithValues s [k, v1] o1 w).2)).lookup (keyText k) = some v2
    ∧ rendersOnce
        (WithValues (WithValues s [k, v1] o1 w).1 [k, v2] o2 (WithValues s [k, v1] o1 w).2)
        (keyText k) v2
    ∧ (mapOf (WithValues s [k, v1, k, v2] o1 w)).lookup (keyText k) = some v2
    ∧ rendersOnce (WithValues s [k, v1, k, v2] o1 w) (keyText k) v2
    ∧ segment ⟨keyText k, v2⟩
        = keyText k ++ ascii ": " ++ fmtV (deref (orPlaceholder v2)) ++ ascii ", " := by
  have hc : ∀ a b : Value,
      mapOf (WithValues (WithValues s [k, a] o1 w).1 [k, b] o2 (WithValues s [k, a] o1 w).2)
        = (w.maps s.valuesMap).insert (keyText k) b := by
    intro a b
    rw [mapOf_WithValues_chain s [k, a] [k, b] o1 o2 w (by simp) (by simp),
      insertPairs_pair, insertPairs_pair]
    exact AList.insert_insert _
  have h1 : ∀ a : Value, mapOf (WithValues s [k, a] o1 w)
      = (w.maps s.valuesMap).insert (keyText k) a := by
    intro a
    rw [mapOf_WithValues s [k, a] o1 w (by simp), insertPairs_pair]
  have h2 : mapOf (WithValues s [k, v1, k, v2] o1 w)
      = (w.maps s.valuesMap).insert (keyText k) v2 := by
    rw [mapOf_WithValues s [k, v1, k, v2] o1 w (by simp), insertPairs_two_pairs]
  refine ⟨?_, ?_, ?_, ?_, ?_, ?_, rfl⟩
  · rw [hc, h1]
  · apply WithValues_rendersOnce _ _ _ _ (by simp)
    rw [hc]
    exact AList.lookup_insert _
  · rw [hc]
    exact AList.lookup_insert _
  · apply WithValues_rendersOnce _ _ _ _ (by simp)
    rw [hc]
    exact AList.lookup_insert _
  · rw [h2]
    exact AList.lookup_insert _
  · apply WithValues_rendersOnce _ _ _ _ (by simp)
    rw [h2]
    exact AList.lookup_insert _

/-- Claim C8. After `WithValues` with a non-empty list, the string of the
returned snapshot agrees with the map it holds: it is the segments of the
entries of that map, in some order of the entries, one segment per key and
nothing else. The segment of an entry is the key, colon-space, the text of the
normalized value (the placeholder for the string `""`) and comma-space. -/
theorem C8_valuesStr_consistent_with_valuesMap (s : sdLogr) (kv : List Value)
    (order : RangeOrder) (w : World) (h : kv ≠ []) :
    ∃ es : List Entry,
      es.Perm (mapOf (WithValues s kv order w)).entries
      ∧ (WithValues s kv order w).1.valuesStr = concatSegments es
      ∧ (es.map Sigma.fst).Nodup
      ∧ (∀ key : GoString, key ∈ es.map Sigma.fst ↔ key ∈ mapOf (WithValues s kv order w))
      ∧ (∀ e : Entry,
          segment e = e.1 ++ ascii ": " ++ fmtV (deref (orPlaceholder e.2)) ++ ascii ", ") := by
  have hp := order.perm (mapOf (WithValues s kv order w)).entries
  refine ⟨order.visit (mapOf (WithValues s kv order w)).entries, hp,
    valuesStr_WithValues s kv order w h, ?_, ?_, fun _ => rfl⟩
  · exact (hp.map Sigma.fst).nodup_iff.mpr (mapOf (WithValues s kv order w)).nodupKeys
  · intro key
    rw [(hp.map Sigma.fst).mem_iff]
    exact AList.mem_keys.symm

/-- Claim C8 at `WithValues("k", "v")` on the root sink. -/
theorem C8_valuesStr_consistent_with_valuesMap_witness :
    [Value.str (ascii "k"), Value.str (ascii "v")] ≠ []
    ∧ ∃ es : List Entry,
      es.Perm (mapOf (WithValues rootSink [Value.str (ascii "k"), Value.str (ascii "v")]
        RangeOrder.stored rootWorld)).entries
      ∧ (WithValues rootSink [Value.str (ascii "k"), Value.str (ascii "v")]
          RangeOrder.stored rootWorld).1.valuesStr = concatSegments es
      ∧ (es.map Sigma.fst).Nodup
      ∧ (∀ key : GoString, key ∈ es.map Sigma.fst ↔
          key ∈ mapOf (WithValues rootSink [Value.str (ascii "k"), Value.str (ascii "v")]
            RangeOrder.stored rootWorld))
      ∧ (∀ e : Entry,
          segment e = e.1 ++ ascii ": " ++ fmtV (deref (orPlaceholder e.2)) ++ ascii ", ") :=
  ⟨by decide, C8_valuesStr_consistent_with_valuesMap rootSink
    [Value.str (ascii "k"), Value.str (ascii "v")] RangeOrder.stored rootWorld (by decide)⟩

/-! ## The normalizer and the placeholder -/

/-- Claim C11. The normalizer `deref` returns a whitelisted value (a string, an
integer, a bool, a whitelisted slice, an error) as it is. For a pointer it
returns nil when the pointer is nil and the value pointed to when it is not,
following one level only: a pointer to a pointer yields the inner pointer.
Every other value (the nil interface, a struct, a map) is returned as it is.
So a nil pointer is written as `<nil>` and a pointer to the string `abc` as
`abc`. -/
theorem C11_deref_follows_one_pointer_level :
    (∀ s : GoString, deref (Value.str s) = Value.str s)
    ∧ (∀ i : Int, deref (Value.int i) = Value.int i)
    ∧ (∀ b : Bool, deref (Value.bool b) = Value.bool b)
    ∧ (∀ shown : GoString, deref (Value.slice shown) = Value.slice shown)
    ∧ (∀ text : GoString, deref (Value.err text) = Value.err text)
    ∧ deref Value.nilPtr = Value.nil
    ∧ (∀ (shown : GoString) (elem : Value), deref (Value.ptr shown elem) = elem)
    ∧ (∀ (outer inner : GoString) (elem : Value),
        deref (Value.ptr outer (Value.ptr inner elem)) = Value.ptr inner elem)
    ∧ (∀ outer : GoString, deref (Value.ptr outer Value.nilPtr) = Value.nilPtr)
    ∧ deref Value.nil = Value.nil
    ∧ (∀ shown : GoString, deref (Value.other shown) = Value.other shown)
    ∧ fmtV (deref Value.nilPtr) = ascii "<nil>"
    ∧ (∀ shown : GoString, fmtV (deref (Value.ptr shown (Value.str (ascii "abc")))) = ascii "abc")
    ∧ writesOf (Info (WithName rootSink (ascii "kvTester")) (callerAt (ascii "/app/main.go") 144)
          0 (ascii "var sp *string") [Value.nilPtr] rootWorld)
        = some [(stdout, ascii "<6>kvTester: main.go: 144, var sp *string, <nil>" ++ [10])]
    ∧ writesOf (Info (WithName rootSink (ascii "kvTester")) (callerAt (ascii "/app/main.go") 150)
          0 (ascii "sp = &s") [Value.ptr (ascii "0xc000010250") (Value.str (ascii "abc"))]
          rootWorld)
        = some [(stdout, ascii "<6>kvTester: main.go: 150, sp = &s, abc" ++ [10])] := by
  refine ⟨fun _ => rfl, fun _ => rfl, fun _ => rfl, fun _ => rfl, fun _ => rfl, rfl,
    fun _ _ => rfl, fun _ _ _ => rfl, fun _ => rfl, rfl, fun _ => rfl, rfl, fun _ => rfl,
    by decide, by decide⟩

/-- Claim C12, as stated, fails: a pointer to an empty string is no empty
string when the code tests `v == ""`, and its normalized text is empty. As the
value of a call-site pair `k` it is written as nothing, and as the value of an
inherited pair `k` it gives the segment `k: , `. -/
theorem C12_counterexample_pointer_to_empty_string :
    fmtV (deref (Value.ptr (ascii "0xc000010250") (Value.str []))) = []
    ∧ writesOf (Info rootSink (callerAt (ascii "/app/main.go") 7) 0 []
          [Value.str (ascii "k"), Value.ptr (ascii "0xc000010250") (Value.str [])] rootWorld)
        = some [(stdout, ascii "<6>main.go: 7, k: " ++ [10])]
    ∧ (WithValues rootSink
          [Value.str (ascii "k"), Value.ptr (ascii "0xc000010250") (Value.str [])]
          RangeOrder.stored rootWorld).1.valuesStr = ascii "k: , " := by
  decide

/-- Claim C12, amended. A key or value that is the empty string is never
written as an empty field. In the call-site rendering of `Info` and `Error` such
an item, at any index, is written as the placeholder of two double quotes. In
`WithValues` a key that is the empty string is stored under the placeholder, and
the segment of a value that is the empty string holds the placeholder. The test
is made on the item as given, before it is normalized. -/
theorem C12_empty_strings_render_as_placeholder :
    (∀ (i : Nat) (rest : List Value) (buf : GoString),
      bufferKvLoop i (Value.str [] :: rest) buf
        = bufferKvLoop (i + 1) rest (buf ++ emptyStringPlaceholder ++ mergeSeparators (i % 2)))
    ∧ (∀ (v : Value) (rest : List Value) (m : GoMap),
        insertPairs (Value.str [] :: v :: rest) m
          = insertPairs rest (m.insert emptyStringPlaceholder v))
    ∧ (∀ key : GoString,
        segment ⟨key, Value.str []⟩ = key ++ ascii ": " ++ emptyStringPlaceholder ++ ascii ", ")
    ∧ (∀ (s : sdLogr) (v : Value) (order : RangeOrder) (w : World),
        rendersOnce (WithValues s [Value.str [], v] order w) emptyStringPlaceholder v)
    ∧ (∀ (s : sdLogr) (k : Value) (order : RangeOrder) (w : World),
        rendersOnce (WithValues s [k, Value.str []] order w) (keyText k) (Value.str []))
    ∧ writesOf (Info rootSink (callerAt (ascii "/app/main.go") 16) 0 []
          [Value.str (ascii "k"), Value.str []] rootWorld)
        = some [(stdout, ascii "<6>main.go: 16, k: " ++ emptyStringPlaceholder ++ [10])]
    ∧ writesOf (Info rootSink (callerAt (ascii "/app/main.go") 17) 0 []
          [Value.str [], Value.str (ascii "v")] rootWorld)
        = some [(stdout, ascii "<6>main.go: 17, " ++ emptyStringPlaceholder ++ ascii ": v"
            ++ [10])]
    ∧ writesOf (Error rootSink (callerAt (ascii "/app/main.go") 18) none []
          [Value.str (ascii "k"), Value.str []] rootWorld)
        = some [(stdout, ascii "<3>main.go: 18, <nil>, k: " ++ emptyStringPlaceholder ++ [10])]
      := by
  refine ⟨fun _ _ _ => rfl, fun _ _ _ => rfl, fun _ => rfl, ?_, ?_, by decide, by decide,
    by decide⟩
  · intro s v order w
    apply WithValues_rendersOnce _ _ _ _ (by simp)
    rw [mapOf_WithValues s _ order w (by simp), insertPairs_pair]
    exact AList.lookup_insert _
  · intro s k order w
    apply WithValues_rendersOnce _ _ _ _ (by simp)
    rw [mapOf_WithValues s _ order w (by simp), insertPairs_pair]
    exact AList.lookup_insert _

/-! ## Lists of odd length -/

theorem insertPairs_append : ∀ (a b : List Value), a.length % 2 = 0 → ∀ m : GoMap,
    insertPairs (a ++ b) m = insertPairs b (insertPairs a m)
  | [], _, _, _ => by simp [insertPairs]
  | [_], _, h, _ => by simp at h
  | k :: v :: rest, b, h, m => by
    have hr : rest.length % 2 = 0 := by
      simp only [List.length_cons] at h
      omega
    simp only [List.cons_append, insertPairs]
    exact insertPairs_append rest b hr _

theorem padKv_odd (kv : List Value) (h : kv.length % 2 = 1) :
    padKv kv = kv ++ [Value.str emptyStringPlaceholder] := by
  unfold padKv
  rw [if_pos (by omega)]

theorem padKv_even (kv : List Value) (h : kv.length % 2 = 0) : padKv kv = kv := by
  unfold padKv
  rw [if_neg (by omega)]

theorem segment_placeholder_value (key : GoString) :
    segment ⟨key, Value.str emptyStringPlaceholder⟩
      = key ++ ascii ": " ++ emptyStringPlaceholder ++ ascii ", " := by
  rfl

/-- Claim C13. For a list of odd length `WithValues(kvList)` returns the
snapshot, and leaves the world, of `WithValues` on the list with the
placeholder appended: the final key is stored with the placeholder as its
value, it is the one entry of the map with that key, and its segment in the
string is the key, colon-space, the two double quotes and comma-space. -/
theorem C13_withValues_pads_odd_list (s : sdLogr) (kv : List Value) (order : RangeOrder)
    (w : World) (h : kv.length % 2 = 1) :
    WithValues s kv order w
        = WithValues s (kv ++ [Value.str emptyStringPlaceholder]) order w
    ∧ (mapOf (WithValues s kv order w)).lookup (keyText (kv.getLastD Value.nil))
        = some (Value.str emptyStringPlaceholder)
    ∧ rendersOnce (WithValues s kv order w) (keyText (kv.getLastD Value.nil))
        (Value.str emptyStringPlaceholder)
    ∧ segment ⟨keyText (kv.getLastD Value.nil), Value.str emptyStringPlaceholder⟩
        = keyText (kv.getLastD Value.nil) ++ ascii ": " ++ emptyStringPlaceholder ++ ascii ", "
      := by
  have hne : kv ≠ [] := by
    intro h0
    rw [h0] at h
    simp at h
  have hne2 : kv ++ [Value.str emptyStringPlaceholder] ≠ [] := by simp
  have heven : (kv ++ [Value.str emptyStringPlaceholder]).length % 2 = 0 := by
    simp only [List.length_append, List.length_singleton]
    omega
  have hlook : (mapOf (WithValues s kv order w)).lookup (keyText (kv.getLastD Value.nil))
      = some (Value.str emptyStringPlaceholder) := by
    rw [mapOf_WithValues s kv order w hne, padKv_odd kv h]
    obtain ⟨init, last, rfl⟩ : ∃ init last, kv = init ++ [last] :=
      ⟨kv.dropLast, kv.getLast hne, (List.dropLast_append_getLast hne).symm⟩
    have hinit : init.length % 2 = 0 := by
      simp only [List.length_append, List.length_singleton] at h
      omega
    have hl : (init ++ [last]).getLastD Value.nil = last := by simp
    rw [hl, List.append_assoc, insertPairs_append init _ hinit]
    simp only [List.singleton_append, insertPairs]
    exact AList.lookup_insert _
  refine ⟨?_, hlook, WithValues_rendersOnce s kv order w hne _ _ hlook,
    segment_placeholder_value _⟩
  rw [WithValues_of_ne_nil s kv order w hne, WithValues_of_ne_nil s _ order w hne2,
    padKv_odd kv h, padKv_even _ heven]

/-- Claim C13 at `WithValues("wvk")` on the root sink. -/
theorem C13_withValues_pads_odd_list_witness :
    [Value.str (ascii "wvk")].length % 2 = 1
    ∧ (WithValues rootSink [Value.str (ascii "wvk")] RangeOrder.stored rootWorld).1.valuesStr
        = ascii "wvk: " ++ emptyStringPlaceholder ++ ascii ", "
    ∧ WithValues rootSink [Value.str (ascii "wvk")] RangeOrder.stored rootWorld
        = WithValues rootSink ([Value.str (ascii "wvk")] ++ [Value.str emptyStringPlaceholder])
            RangeOrder.stored rootWorld :=
  ⟨by decide, by decide,
    (C13_withValues_pads_odd_list rootSink [Value.str (ascii "wvk")] RangeOrder.stored
      rootWorld (by decide)).1⟩

/-- Claim C14, evaluated where it fails. `Info("", "k")` on the root sink writes
the key alone, `<6>main.go: 15, k` and a line feed: `bufferKv` does not pad the
list, and `write` removes the colon-space after the key. With the placeholder
appended to the list the line has the key, colon-space and the two double
quotes. The lines of `Error` differ in the same way. -/
theorem C14_call_site_odd_list_is_not_padded :
    writesOf (Info rootSink (callerAt (ascii "/app/main.go") 15) 0 [] [Value.str (ascii "k")]
        rootWorld)
      = some [(stdout, ascii "<6>main.go: 15, k" ++ [10])]
    ∧ writesOf (Info rootSink (callerAt (ascii "/app/main.go") 15) 0 []
        ([Value.str (ascii "k")] ++ [Value.str emptyStringPlaceholder]) rootWorld)
      = some [(stdout, ascii "<6>main.go: 15, k: " ++ emptyStringPlaceholder ++ [10])]
    ∧ writesOf (Error rootSink (callerAt (ascii "/app/main.go") 15) none []
        [Value.str (ascii "k")] rootWorld)
      = some [(stdout, ascii "<3>main.go: 15, <nil>, k" ++ [10])]
    ∧ writesOf (Error rootSink (callerAt (ascii "/app/main.go") 15) none []
        ([Value.str (ascii "k")] ++ [Value.str emptyStringPlaceholder]) rootWorld)
      = some [(stdout, ascii "<3>main.go: 15, <nil>, k: " ++ emptyStringPlaceholder ++ [10])]
      := by
  decide

/-! ## Fields a derivation leaves alone, and the depth -/

theorem wrapInt_eq (x : Int) (h1 : -(2 ^ 63) ≤ x) (h2 : x < 2 ^ 63) : wrapInt x = x := by
  unfold wrapInt
  omega

theorem WithName_fields (l : sdLogr) (name : GoString) :
    (WithName l name).level = l.level ∧ (WithName l name).depth = l.depth
      ∧ (WithName l name).valuesMap = l.valuesMap ∧ (WithName l name).valuesStr = l.valuesStr
      ∧ (WithName l name).out = l.out ∧ (WithName l name).logCallerInfo = l.logCallerInfo := by
  unfold WithName
  split <;> exact ⟨rfl, rfl, rfl, rfl, rfl, rfl⟩

theorem WithValues_fields (l : sdLogr) (kv : List Value) (order : RangeOrder) (w : World) :
    (WithValues l kv order w).1.level = l.level ∧ (WithValues l kv order w).1.depth = l.depth
      ∧ (WithValues l kv order w).1.prefix_ = l.prefix_
      ∧ (WithValues l kv order w).1.out = l.out
      ∧ (WithValues l kv order w).1.logCallerInfo = l.logCallerInfo := by
  unfold WithValues
  dsimp only
  split <;> exact ⟨rfl, rfl, rfl, rfl, rfl⟩

/-- Claim C15. Each derivation changes its own fields only. `WithName` leaves
level, depth, map, string, destination and caller flag as they are; `WithValues`
leaves level, depth, name, destination and caller flag (and the address of the
map) as they are; `WithCallDepth(delta)` changes the depth alone, to the Go sum
`depth + delta`, which is the sum of the integers whenever that sum is in the
range of a 64-bit `int`. So a name or values derivation never resets the
depth: on the root sink, of depth 2, `WithValues("f", "cd1Test")` followed by
`WithCallDepth(1)` has depth 3. -/
theorem C15_derivations_change_their_own_fields_only :
    (∀ (l : sdLogr) (name : GoString),
      (WithName l name).level = l.level ∧ (WithName l name).depth = l.depth
        ∧ (WithName l name).valuesMap = l.valuesMap ∧ (WithName l name).valuesStr = l.valuesStr
        ∧ (WithName l name).out = l.out ∧ (WithName l name).logCallerInfo = l.logCallerInfo)
    ∧ (∀ (l : sdLogr) (kv : List Value) (order : RangeOrder) (w : World),
        (WithValues l kv order w).1.level = l.level
          ∧ (WithValues l kv order w).1.depth = l.depth
          ∧ (WithValues l kv order w).1.prefix_ = l.prefix_
          ∧ (WithValues l kv order w).1.out = l.out
          ∧ (WithValues l kv order w).1.logCallerInfo = l.logCallerInfo
          ∧ (WithValues l kv order w).1.valuesMap = l.valuesMap)
    ∧ (∀ (l : sdLogr) (delta : Int),
        WithCallDepth l delta = { l with depth := (WithCallDepth l delta).depth }
          ∧ (WithCallDepth l delta).depth
              = if -(2 ^ 63) ≤ l.depth + delta ∧ l.depth + delta < 2 ^ 63 then l.depth + delta
                else wrapInt (l.depth + delta))
    ∧ rootSink.depth = 2
    ∧ (WithCallDepth (WithValues rootSink [Value.str (ascii "f"), Value.str (ascii "cd1Test")]
          RangeOrder.stored rootWorld).1 1).depth = 3
    ∧ (WithName (WithCallDepth rootSink 1) (ascii "name")).depth = 3 := by
  refine ⟨WithName_fields, ?_, ?_, by decide, by decide, by decide⟩
  · intro l kv order w
    obtain ⟨h1, h2, h3, h4, h5⟩ := WithValues_fields l kv order w
    exact ⟨h1, h2, h3, h4, h5, WithValues_valuesMap l kv order w⟩
  · intro l delta
    refine ⟨rfl, ?_⟩
    by_cases h : -(2 ^ 63) ≤ l.depth + delta ∧ l.depth + delta < 2 ^ 63
    · rw [if_pos h]
      exact wrapInt_eq _ h.1 h.2
    · rw [if_neg h]
      rfl

theorem Init_depth (l : sdLogr) (h : Int) :
    (Init l ⟨h⟩).depth = if h < 0 then l.depth else wrapInt (l.depth + h) := by
  unfold Init
  by_cases hh : h < 0
  · simp [hh]
  · simp [hh]

theorem NewWithOptions_depth (o : Options) (info : RuntimeInfo) (w : World) :
    (NewWithOptions o info w).1.depth
      = if info.CallDepth < 0 then wrapInt (max o.Depth 0 + 1)
        else wrapInt (wrapInt (max o.Depth 0 + 1) + info.CallDepth) := by
  have hmax : (if o.Depth < 0 then (0 : Int) else o.Depth) = max o.Depth 0 := by
    by_cases h : o.Depth < 0
    · rw [if_pos h, max_eq_right (le_of_lt h)]
    · rw [if_neg h, max_eq_left (not_lt.mp h)]
  rw [← hmax]
  unfold NewWithOptions Init
  by_cases h1 : o.Depth < 0 <;> by_cases h2 : o.Verbosity < 0 <;>
    by_cases h3 : o.Out = none <;> by_cases h4 : info.CallDepth < 0 <;>
    simp [h1, h2, h3, h4]

theorem GrowsFromRoot_depth (l : sdLogr) (h : GrowsFromRoot l) :
    1 ≤ l.depth ∧ l.depth < 2 ^ 63 := by
  induction h with
  | root o info w h =>
    rw [NewWithOptions_depth]
    have h0 : 0 ≤ max o.Depth 0 := le_max_right _ _
    have hc : 0 ≤ max info.CallDepth 0 := le_max_right _ _
    have hc2 : info.CallDepth ≤ max info.CallDepth 0 := le_max_left _ _
    have e1 : wrapInt (max o.Depth 0 + 1) = max o.Depth 0 + 1 :=
      wrapInt_eq _ (by omega) (by omega)
    by_cases h4 : info.CallDepth < 0
    · rw [if_pos h4, e1]
      omega
    · rw [if_neg h4, e1, wrapInt_eq _ (by omega) (by omega)]
      omega
  | withName l name _ ih =>
    rw [(WithName_fields l name).2.1]
    exact ih
  | withValues l kv order w _ ih =>
    rw [(WithValues_fields l kv order w).2.1]
    exact ih
  | withCallDepth l delta hd hsum _ ih =>
    have e : (WithCallDepth l delta).depth = wrapInt (l.depth + delta) := rfl
    rw [e, wrapInt_eq _ (by omega) hsum]
    omega

/-- Claim C16, as stated, fails: `WithCallDepth` takes a negative adjustment.
On the root sink, of depth 2, `WithCallDepth(-1)` has depth 1, below the depth
of the root, and `WithCallDepth(-5)` has depth -3, below 1. The sums are those
of a 64-bit `int`: the root built with the largest `Depth` has a depth below 1,
and the largest adjustment lowers the depth of the root sink. -/
theorem C16_counterexample_negative_call_depth :
    rootSink.depth = 2
    ∧ (WithCallDepth rootSink (-1)).depth = 1
    ∧ (WithCallDepth rootSink (-1)).depth < rootSink.depth
    ∧ (WithCallDepth rootSink (-5)).depth = -3
    ∧ (WithCallDepth rootSink (-5)).depth < 1
    ∧ (NewWithOptions ⟨2 ^ 63 - 1, 0, true, none⟩ frontEndInfo World.empty).1.depth < 1
    ∧ (WithCallDepth rootSink (2 ^ 63 - 1)).depth < rootSink.depth := by
  decide

/-- Claim C16, amended. For an adjustment `delta` that is not negative and for
every hint `h` of the front-end, with sums in the range of a 64-bit `int`, the
depth of `WithCallDepth(delta)` and the depth after `Init(h)` are at least the
depth of the snapshot (a negative hint is ignored). Every snapshot built from a
root of `NewWithOptions` by name and values derivations and by such adjustments
has depth at least 1. -/
theorem C16_depth_grows_under_nonnegative_adjustments (s : sdLogr) (delta h : Int)
    (hs : -(2 ^ 63) ≤ s.depth) (hdelta : 0 ≤ delta) (hsum : s.depth + delta < 2 ^ 63)
    (hhint : s.depth + h < 2 ^ 63) :
    s.depth ≤ (WithCallDepth s delta).depth
    ∧ s.depth ≤ (Init s ⟨h⟩).depth
    ∧ (h < 0 → (Init s ⟨h⟩).depth = s.depth)
    ∧ (∀ l : sdLogr, GrowsFromRoot l → 1 ≤ l.depth) := by
  refine ⟨?_, ?_, ?_, fun l hl => (GrowsFromRoot_depth l hl).1⟩
  · have e : (WithCallDepth s delta).depth = wrapInt (s.depth + delta) := rfl
    rw [e, wrapInt_eq _ (by omega) hsum]
    omega
  · rw [Init_depth]
    by_cases hh : h < 0
    · rw [if_pos hh]
    · rw [if_neg hh, wrapInt_eq _ (by omega) hhint]
      omega
  · intro hh
    rw [Init_depth, if_pos hh]

/-- Claim C16, amended, at the root sink with adjustment 1 and hint 1; the
snapshot `WithName("a").WithCallDepth(1)` of the root sink is one of those built
from a root. -/
theorem C16_depth_grows_under_nonnegative_adjustments_witness :
    (-(2 ^ 63) ≤ rootSink.depth ∧ (0 : Int) ≤ 1 ∧ rootSink.depth + 1 < 2 ^ 63)
    ∧ rootSink.depth ≤ (WithCallDepth rootSink 1).depth
    ∧ rootSink.depth ≤ (Init rootSink ⟨1⟩).depth
    ∧ 1 ≤ (WithCallDepth (WithName rootSink (ascii "a")) 1).depth :=
  ⟨by decide,
    (C16_depth_grows_under_nonnegative_adjustments rootSink 1 1 (by decide) (by decide)
      (by decide) (by decide)).1,
    (C16_depth_grows_under_nonnegative_adjustments rootSink 1 1 (by decide) (by decide)
      (by decide) (by decide)).2.1,
    (C16_depth_grows_under_nonnegative_adjustments rootSink 1 1 (by decide) (by decide)
      (by decide) (by decide)).2.2.2 _
      (GrowsFromRoot.withCallDepth _ 1 (by decide) (by decide)
        (GrowsFromRoot.withName _ _
          (GrowsFromRoot.root ⟨0, 0, true, none⟩ frontEndInfo World.empty (by decide))))⟩

/-! ## The file component of the caller -/

theorem lastSlashLoop_le (str : GoString) : ∀ i : Nat, lastSlashLoop str i ≤ i := by
  intro i
  induction i with
  | zero => simp [lastSlashLoop]
  | succ i ih =>
    rw [lastSlashLoop]
    split
    · exact le_refl _
    · omega

theorem getLastSlashPos_bounds (str : GoString) :
    0 ≤ getLastSlashPos str + 1 ∧ (getLastSlashPos str + 1).toNat ≤ str.length := by
  unfold getLastSlashPos
  by_cases h : str.length = 0
  · rw [if_pos h]
    simp
  · rw [if_neg h]
    have := lastSlashLoop_le str (str.length - 1)
    omega

/-- Claim C17, evaluated where it fails. For the file `main.go`, which has no
slash, `getLastSlashPos` returns 0 (its loop stops before index 0) and the
file component `file[getLastSlashPos(file)+1:]` is `ain.go`, where the basename
is the whole of `main.go`; `Info` and `Error` write `ain.go`. For the file `a`
the component is empty. For `/app/main.go` and for the empty file the component
is the basename. -/
theorem C17_file_component_drops_first_byte_without_slash :
    getLastSlashPos (ascii "main.go") = 0
    ∧ (ascii "main.go").drop (getLastSlashPos (ascii "main.go") + 1).toNat = ascii "ain.go"
    ∧ basenameSpec (ascii "main.go") = ascii "main.go"
    ∧ writesOf (Info rootSink (callerAt (ascii "main.go") 7) 0 (ascii "msg") [] rootWorld)
        = some [(stdout, ascii "<6>ain.go: 7, msg" ++ [10])]
    ∧ writesOf (Error rootSink (callerAt (ascii "main.go") 7) none (ascii "msg") [] rootWorld)
        = some [(stdout, ascii "<3>ain.go: 7, <nil>, msg" ++ [10])]
    ∧ (ascii "a").drop (getLastSlashPos (ascii "a") + 1).toNat = []
    ∧ (ascii "/app/main.go").drop (getLastSlashPos (ascii "/app/main.go") + 1).toNat
        = basenameSpec (ascii "/app/main.go")
    ∧ basenameSpec (ascii "/app/main.go") = ascii "main.go"
    ∧ ([] : GoString).drop (getLastSlashPos [] + 1).toNat = basenameSpec [] := by
  decide

/-! ## Inherited values are never suppressed -/

theorem insertPairs_entries_ne_nil : ∀ (kv : List Value) (m : GoMap),
    m.entries ≠ [] → (insertPairs kv m).entries ≠ []
  | [], _, h => by simpa [insertPairs] using h
  | [_], _, h => by simpa [insertPairs] using h
  | k :: v :: rest, m, _ => by
    rw [insertPairs]
    apply insertPairs_entries_ne_nil rest
    rw [AList.insert_entries]
    exact List.cons_ne_nil _ _

theorem padKv_entries_ne_nil (kv : List Value) (m : GoMap) (h : kv ≠ []) :
    (insertPairs (padKv kv) m).entries ≠ [] := by
  match kv, h with
  | [k], _ =>
    have e : padKv [k] = [k, Value.str emptyStringPlaceholder] := rfl
    rw [e, insertPairs]
    apply insertPairs_entries_ne_nil
    rw [AList.insert_entries]
    exact List.cons_ne_nil _ _
  | k :: v :: rest, _ =>
    have e : ∃ tail, padKv (k :: v :: rest) = k :: v :: tail := by
      unfold padKv
      split
      · exact ⟨rest ++ [Value.str emptyStringPlaceholder], rfl⟩
      · exact ⟨rest, rfl⟩
    obtain ⟨tail, ht⟩ := e
    rw [ht, insertPairs]
    apply insertPairs_entries_ne_nil
    rw [AList.insert_entries]
    exact List.cons_ne_nil _ _

theorem concatSegments_ends : ∀ es : List Entry, es ≠ [] →
    ∃ x : GoString, concatSegments es = x ++ ascii ", "
  | [], h => absurd rfl h
  | [e], _ => ⟨e.1 ++ ascii ": " ++ fmtV (deref (orPlaceholder e.2)), by
      simp [concatSegments, segment]⟩
  | e :: e2 :: rest, _ => by
    obtain ⟨x, hx⟩ := concatSegments_ends (e2 :: rest) (List.cons_ne_nil _ _)
    refine ⟨segment e ++ x, ?_⟩
    rw [concatSegments, hx, List.append_assoc]

theorem WithValues_valuesStr_ends (s : sdLogr) (kv : List Value) (order : RangeOrder)
    (w : World) (h : kv ≠ []) :
    ∃ x : GoString, (WithValues s kv order w).1.valuesStr = x ++ ascii ", " := by
  rw [valuesStr_WithValues s kv order w h]
  apply concatSegments_ends
  intro h0
  have hp := order.perm (mapOf (WithValues s kv order w)).entries
  rw [h0] at hp
  have hnil : (mapOf (WithValues s kv order w)).entries = [] := List.Perm.nil_eq hp |>.symm
  rw [mapOf_WithValues s kv order w h] at hnil
  exact padKv_entries_ne_nil kv _ h hnil

/-- Claim C18. After `WithValues` with a non-empty list, of odd or even length
and of any values, the string of the returned snapshot is not empty and ends in
comma-space. So `Info("")` with no call-site items on that snapshot is not
suppressed: it makes one write, the code `<6>`, the name part, the caller
information when the flag is set, and the inherited values without their final
comma-space, then a line feed. -/
theorem C18_info_with_inherited_values_is_written (s : sdLogr) (kv : List Value)
    (order : RangeOrder) (w : World) (caller : Caller) (level : Int) (w2 : World)
    (h : kv ≠ []) :
    (WithValues s kv order w).1.valuesStr ≠ []
    ∧ ∃ x : GoString,
        (WithValues s kv order w).1.valuesStr = x ++ ascii ", "
        ∧ Info (WithValues s kv order w).1 caller level [] [] w2
            = some { w2 with written := w2.written ++
                [((WithValues s kv order w).1.out,
                  ascii "<6>" ++ namePart (WithValues s kv order w).1
                    ++ (if (WithValues s kv order w).1.logCallerInfo
                        then callerInfo caller (WithValues s kv order w).1.depth else [])
                    ++ x ++ [10])] } := by
  obtain ⟨x, hx⟩ := WithValues_valuesStr_ends s kv order w h
  have hne : (WithValues s kv order w).1.valuesStr ≠ [] := by
    rw [hx]
    simp [ascii]
  refine ⟨hne, x, hx, ?_⟩
  rw [Info_eq, if_pos (Or.inr (Or.inl hne)), infoAssemble_fst, hx]
  have e : sdLvlInfo ++ namePart (WithValues s kv order w).1
        ++ (if (WithValues s kv order w).1.logCallerInfo = true
            then callerInfo caller (WithValues s kv order w).1.depth else [])
        ++ msgPart [] ++ (x ++ ascii ", ") ++ pairsText 0 []
      = (ascii "<6>" ++ namePart (WithValues s kv order w).1
        ++ (if (WithValues s kv order w).1.logCallerInfo = true
            then callerInfo caller (WithValues s kv order w).1.depth else []) ++ x)
        ++ ascii ", " := by
    simp [msgPart, pairsText, sdLvlInfo]
  rw [e, replaceLastTwo_append _ _ (by decide)]
  simp [replaceLastTwo, ascii]

/-- Claim C18 at `WithValues("vwk")` on the root sink, a list of odd length. -/
theorem C18_info_with_inherited_values_is_written_witness :
    [Value.str (ascii "vwk")] ≠ []
    ∧ (WithValues rootSink [Value.str (ascii "vwk")] RangeOrder.stored rootWorld).1.valuesStr
        ≠ []
    ∧ writesOf (Info (WithValues rootSink [Value.str (ascii "vwk")] RangeOrder.stored
          rootWorld).1 (callerAt (ascii "/app/main.go") 96) 0 [] [] rootWorld)
        = some [(stdout, ascii "<6>main.go: 96, vwk: " ++ emptyStringPlaceholder ++ [10])] :=
  ⟨by decide,
    (C18_info_with_inherited_values_is_written rootSink [Value.str (ascii "vwk")]
      RangeOrder.stored rootWorld (callerAt (ascii "/app/main.go") 96) 0 rootWorld
      (by decide)).1,
    by decide⟩

/-! ## The buffers handed to the writer -/

theorem NewWithOptions_valuesStr (o : Options) (info : RuntimeInfo) (w : World) :
    (NewWithOptions o info w).1.valuesStr = [] := by
  unfold NewWithOptions Init
  dsimp only
  split <;> rfl

theorem Reachable_valuesStr (l : sdLogr) (h : Reachable l) :
    l.valuesStr = [] ∨ ∃ x : GoString, l.valuesStr = x ++ ascii ", " := by
  induction h with
  | root o info w => exact Or.inl (NewWithOptions_valuesStr o info w)
  | init l info _ ih =>
    have e : (Init l info).valuesStr = l.valuesStr := by
      unfold Init
      split <;> rfl
    rw [e]
    exact ih
  | withName l name _ ih =>
    rw [(WithName_fields l name).2.2.2.1]
    exact ih
  | withValues l kv order w _ ih =>
    by_cases hk : kv = []
    · subst hk
      exact ih
    · exact Or.inr (WithValues_valuesStr_ends l kv order w hk)
  | withCallDepth l delta _ ih => exact ih

theorem pairsText_ends : ∀ (kv : List Value) (i : Nat), kv ≠ [] →
    ∃ (y sep : GoString), isSeparator sep ∧ pairsText i kv = y ++ sep
  | [], _, h => absurd rfl h
  | [v], i, _ => by
    refine ⟨fmtV (deref (orPlaceholder v)), if i % 2 = 0 then ascii ": " else ascii ", ", ?_, ?_⟩
    · unfold isSeparator
      split
      · exact Or.inr rfl
      · exact Or.inl rfl
    · simp [pairsText]
  | v :: v2 :: rest, i, _ => by
    obtain ⟨y, sep, hs, hy⟩ := pairsText_ends (v2 :: rest) (i + 1) (List.cons_ne_nil _ _)
    refine ⟨fmtV (deref (orPlaceholder v)) ++ (if i % 2 = 0 then ascii ": " else ascii ", ")
      ++ y, sep, hs, ?_⟩
    rw [pairsText, hy]
    simp only [List.append_assoc]

theorem tail_ends (vs msg : GoString) (kv : List Value)
    (hvs : vs = [] ∨ ∃ x : GoString, vs = x ++ ascii ", ")
    (h : msg ≠ [] ∨ vs ≠ [] ∨ kv ≠ []) :
    ∃ (t sep : GoString), isSeparator sep ∧ msgPart msg ++ vs ++ pairsText 0 kv = t ++ sep := by
  by_cases hk : kv = []
  · subst hk
    by_cases hv : vs = []
    · subst hv
      have hm : msg ≠ [] := by
        rcases h with h | h | h
        · exact h
        · exact absurd rfl h
        · exact absurd rfl h
      exact ⟨msg, ascii ", ", Or.inl rfl, by simp [msgPart, hm, pairsText]⟩
    · rcases hvs with hvs | ⟨x, hx⟩
      · exact absurd hvs hv
      · exact ⟨msgPart msg ++ x, ascii ", ", Or.inl rfl, by simp [hx, pairsText]⟩
  · obtain ⟨y, sep, hs, hy⟩ := pairsText_ends kv 0 hk
    exact ⟨msgPart msg ++ vs ++ y, sep, hs, by rw [hy]; simp only [List.append_assoc]⟩

theorem isSeparator_length (sep : GoString) (h : isSeparator sep) : sep.length = 2 := by
  rcases h with h | h <;> subst h <;> rfl

theorem replaceLastTwo_separator (body sep : GoString) (h : isSeparator sep) :
    replaceLastTwo (body ++ sep) = body ++ [10] := by
  rw [replaceLastTwo_append _ _ (by rw [isSeparator_length sep h])]
  unfold replaceLastTwo
  rw [isSeparator_length sep h]
  simp

/-- Claim C19. For every snapshot the package can build and every message,
error, call-site list and caller resolution, the buffer `Info` hands to `write`
(it does so when `hasData` is set) and the buffer `Error` hands to `write` are
the severity code, a body and one of the two-byte separators comma-space and
colon-space. So the buffer has at least two bytes (five, in fact), `write` does
not panic, and the line written is the severity code, the body and a line feed:
the trim removes the separator and nothing else. -/
theorem C19_written_buffer_ends_in_separator (l : sdLogr) (caller : Caller) (level : Int)
    (err : Option GoString) (msg : GoString) (kv : List Value) (w : World)
    (h : Reachable l) :
    ((infoAssemble l caller msg kv).2 = true →
      ∃ (body sep : GoString), isSeparator sep
        ∧ (infoAssemble l caller msg kv).1 = sdLvlInfo ++ body ++ sep
        ∧ 2 ≤ (infoAssemble l caller msg kv).1.length
        ∧ Info l caller level msg kv w
            = some { w with written := w.written ++ [(l.out, sdLvlInfo ++ body ++ [10])] })
    ∧ ∃ (body sep : GoString), isSeparator sep
        ∧ errorAssemble l caller err msg kv = sdLvlError ++ body ++ sep
        ∧ 2 ≤ (errorAssemble l caller err msg kv).length
        ∧ Error l caller err msg kv w
            = some { w with written := w.written ++ [(l.out, sdLvlError ++ body ++ [10])] } := by
  have hvs := Reachable_valuesStr l h
  refine ⟨?_, ?_⟩
  · intro hd
    rw [infoAssemble_snd] at hd
    have hdata : msg ≠ [] ∨ l.valuesStr ≠ [] ∨ kv ≠ [] := by simpa using hd
    obtain ⟨t, sep, hs, ht⟩ := tail_ends l.valuesStr msg kv hvs hdata
    have hb : (infoAssemble l caller msg kv).1
        = sdLvlInfo ++ (namePart l ++ (if l.logCallerInfo then callerInfo caller l.depth else [])
            ++ t) ++ sep := by
      rw [infoAssemble_fst]
      have e : ∀ a b c : GoString, a ++ b ++ c ++ msgPart msg ++ l.valuesStr ++ pairsText 0 kv
          = a ++ b ++ c ++ (msgPart msg ++ l.valuesStr ++ pairsText 0 kv) := by
        intro a b c
        simp only [List.append_assoc]
      rw [e, ht]
      simp only [List.append_assoc]
    refine ⟨_, sep, hs, hb, ?_, ?_⟩
    · have := infoAssemble_length l caller msg kv
      omega
    · rw [Info_eq, if_pos hdata, hb, replaceLastTwo_separator _ _ hs]
  · by_cases hdata : msg ≠ [] ∨ l.valuesStr ≠ [] ∨ kv ≠ []
    · obtain ⟨t, sep, hs, ht⟩ := tail_ends l.valuesStr msg kv hvs hdata
      have hb : errorAssemble l caller err msg kv
          = sdLvlError ++ (namePart l ++ callerInfo caller l.depth ++ errPart err ++ t)
              ++ sep := by
        rw [errorAssemble_eq]
        have e : ∀ a b c d : GoString,
            a ++ b ++ c ++ d ++ msgPart msg ++ l.valuesStr ++ pairsText 0 kv
              = a ++ b ++ c ++ d ++ (msgPart msg ++ l.valuesStr ++ pairsText 0 kv) := by
          intro a b c d
          simp only [List.append_assoc]
        rw [e, ht]
        simp only [List.append_assoc]
      refine ⟨_, sep, hs, hb, ?_, ?_⟩
      · rw [hb]
        simp only [List.length_append, isSeparator_length sep hs]
        omega
      · rw [Error_eq, hb, replaceLastTwo_separator _ _ hs]
    · have hm : msg = [] := by
        by_contra hc
        exact hdata (Or.inl hc)
      have hv : l.valuesStr = [] := by
        by_contra hc
        exact hdata (Or.inr (Or.inl hc))
      have hk : kv = [] := by
        by_contra hc
        exact hdata (Or.inr (Or.inr hc))
      have hb : errorAssemble l caller err msg kv
          = sdLvlError ++ (namePart l ++ callerInfo caller l.depth ++ errText err)
              ++ ascii ", " := by
        rw [errorAssemble_eq, errPart_eq, hm, hv, hk]
        simp [msgPart, pairsText]
      refine ⟨_, ascii ", ", Or.inl rfl, hb, ?_, ?_⟩
      · rw [hb]
        simp only [List.length_append]
        have : (ascii ", ").length = 2 := rfl
        omega
      · rw [Error_eq, hb, replaceLastTwo_separator _ _ (Or.inl rfl)]

/-- Claim C19 at the root sink, which `NewWithOptions` builds, for `Info("msg")`
and `Error(nil, "msg")`. -/
theorem C19_written_buffer_ends_in_separator_witness :
    (infoAssemble rootSink (callerAt (ascii "/app/main.go") 24) (ascii "msg") []).2 = true
    ∧ (infoAssemble rootSink (callerAt (ascii "/app/main.go") 24) (ascii "msg") []).1
        = sdLvlInfo ++ ascii "main.go: 24, msg" ++ ascii ", "
    ∧ ∃ (body sep : GoString), isSeparator sep
        ∧ errorAssemble rootSink (callerAt (ascii "/app/main.go") 24) none (ascii "msg") []
            = sdLvlError ++ body ++ sep
        ∧ 2 ≤ (errorAssemble rootSink (callerAt (ascii "/app/main.go") 24) none (ascii "msg")
            []).length
        ∧ Error rootSink (callerAt (ascii "/app/main.go") 24) none (ascii "msg") [] rootWorld
            = some { rootWorld with written :=
                rootWorld.written ++ [(rootSink.out, sdLvlError ++ body ++ [10])] } :=
  ⟨by decide, by decide,
    (C19_written_buffer_ends_in_separator rootSink (callerAt (ascii "/app/main.go") 24) 0 none
      (ascii "msg") [] rootWorld
      (Reachable.root ⟨0, 0, true, none⟩ frontEndInfo World.empty)).2⟩

end Sdlogr
